import Mathlib

/-!
Verification of the URL normalization/deduplication engine (uniparams.py)
and the scope-classification engine (scope_check.py) of the snippets
repository, via a shallow embedding of the Python code into Lean.

Python strings are modelled as lists of characters (PyStr).  Library
helpers from the Python standard library that the scripts call
(str.strip, str.lower, re patterns used by the scripts, urllib.parse
functions) are embedded faithfully at the level the scripts use them;
where Python performs full-Unicode case mapping the model uses ASCII
case mapping, which coincides with Python on all ASCII input.
-/

set_option maxRecDepth 20000

abbrev PyStr := List Char

/-- Characters stripped by Python str.strip() with no arguments
(whitespace; modelled on the ASCII whitespace set). -/
def pyIsSpace (c : Char) : Bool :=
  c = ' ' ∨ c = '\t' ∨ c = '\n' ∨ c = '\r' ∨ c = '\x0b' ∨ c = '\x0c'

/-- Python str.strip(): remove leading and trailing whitespace. -/
def pyStrip (s : PyStr) : PyStr :=
  ((s.dropWhile pyIsSpace).reverse.dropWhile pyIsSpace).reverse

/-- ASCII lower-casing of one character (Python str.lower on ASCII). -/
def asciiLower (c : Char) : Char :=
  if 'A' ≤ c ∧ c ≤ 'Z' then Char.ofNat (c.toNat + 32) else c

/-- Python str.lower(), modelled as ASCII case mapping. -/
def pyLower (s : PyStr) : PyStr := s.map asciiLower

/-- Split at the first occurrence of a separator character, like
Python s.split(sep, 1): returns the part before it and, when the
separator occurs, the part after it. -/
def splitFirst (sep : Char) : PyStr → PyStr × Option PyStr
  | [] => ([], none)
  | c :: rest =>
    if c = sep then ([], some rest)
    else
      let r := splitFirst sep rest
      (c :: r.1, r.2)

/-- Python s.split(sep): split at every occurrence of the separator;
the empty string yields one empty piece. -/
def pySplit (sep : Char) : PyStr → List PyStr
  | [] => [[]]
  | c :: rest =>
    if c = sep then [] :: pySplit sep rest
    else
      match pySplit sep rest with
      | r :: rs => (c :: r) :: rs
      | [] => [[c]]

/-- Python s.rstrip(ch) for a single character: drop trailing copies. -/
def pyRstripChar (ch : Char) (s : PyStr) : PyStr :=
  (s.reverse.dropWhile (fun c => c = ch)).reverse

/-- Python `sub in s` membership test for strings, specialised to the
uses in the scripts where the needle is a single character. -/
def pyContains (s : PyStr) (c : Char) : Bool := s.contains c

/-! ## scope_check.py -/

/-- The final capturing group of the extraction regex: the maximal run
of characters other than a slash or a colon; the regex requires at
least one such character. -/
def matchHostTail (s : PyStr) : Option PyStr :=
  if s.takeWhile (fun c => ¬(c = '/' ∨ c = ':')) = [] then none
  else some (s.takeWhile (fun c => ¬(c = '/' ∨ c = ':')))

/-- The optional www-dot group of the extraction regex, with the
backtracking the Python regex engine performs: the greedy optional
group first consumes a leading www-dot and falls back to consuming
nothing when the rest of the pattern then fails. -/
def afterWww (s : PyStr) : Option PyStr :=
  if ("www.".data).isPrefixOf s then
    match matchHostTail (s.drop 4) with
    | some d => some d
    | none => matchHostTail s
  else matchHostTail s

/-- scope_check.extract_domain: search of the anchored pattern that
optionally skips an http or https scheme, optionally skips a leading
www-dot, and captures the maximal nonempty run of characters other
than a slash or a colon.  The optional groups are greedy and
backtrack, as in the Python regex engine. -/
def extract_domain (url : PyStr) : Option PyStr :=
  if ("https://".data).isPrefixOf url then
    match afterWww (url.drop 8) with
    | some d => some d
    | none => afterWww url
  else if ("http://".data).isPrefixOf url then
    match afterWww (url.drop 7) with
    | some d => some d
    | none => afterWww url
  else afterWww url

/-- The per-line pattern normalization of scope_check.read_domains_from_file,
applied to an already stripped nonblank line: remove one leading http or
https scheme, remove trailing slashes, remove one leading www-dot. -/
def processDomainLine (s : PyStr) : PyStr :=
  let s1 := if ("https://".data).isPrefixOf s then s.drop 8
            else if ("http://".data).isPrefixOf s then s.drop 7
            else s
  let s2 := pyRstripChar '/' s1
  if ("www.".data).isPrefixOf s2 then s2.drop 4 else s2

/-- scope_check.read_domains_from_file, over the list of lines of the
file: strip each line, skip blank lines, normalize the rest. -/
def read_domains (lines : List PyStr) : List PyStr :=
  lines.filterMap fun l =>
    let s := pyStrip l
    if s = [] then none else some (processDomainLine s)

/-- scope_check.domain_in_scope. -/
def domain_in_scope (domain scope_domain : PyStr) (allow_wildcards : Bool) : Bool :=
  if allow_wildcards then
    domain = scope_domain ∨ ('.' :: scope_domain).isSuffixOf domain
  else
    domain = scope_domain ∨
    domain = "www.".data ++ scope_domain ∨
    "www.".data ++ domain = scope_domain

/-- scope_check.is_in_scope: some scope pattern matches. -/
def is_in_scope (domain : PyStr) (scope_domains : List PyStr)
    (allow_wildcards : Bool) : Bool :=
  scope_domains.any fun scope_d => domain_in_scope domain scope_d allow_wildcards

/-- The two possible classification verdicts of scope_check.process_urls. -/
inductive Verdict where
  | IN_SCOPE : Verdict
  | OUT_OF_SCOPE : Verdict
deriving DecidableEq, Repr

/-- The out-of-scope membership test inlined in scope_check.process_urls:
the domain equals a pattern or is a dot-subdomain of it. -/
def oosMatch (domain : PyStr) (out_of_scope_list : List PyStr) : Bool :=
  out_of_scope_list.any fun d =>
    d = domain ∨ ('.' :: d).isSuffixOf domain

/-- The classification of one URL in the loop of scope_check.process_urls:
failed extraction and out-of-scope matches short-circuit to
OUT_OF_SCOPE; otherwise the scope list decides. -/
def classifyUrl (url : PyStr) (out_of_scope_list scope_domains : List PyStr)
    (allow_wildcards : Bool) : Verdict :=
  match extract_domain url with
  | none => Verdict.OUT_OF_SCOPE
  | some domain =>
    if oosMatch domain out_of_scope_list then Verdict.OUT_OF_SCOPE
    else if is_in_scope domain scope_domains allow_wildcards then Verdict.IN_SCOPE
    else Verdict.OUT_OF_SCOPE

/-- The partitioning loop of scope_check.process_urls: each URL is
appended to the in-scope or the out-of-scope partition according to
its classification, preserving input order. -/
def partitionUrls (urls : List PyStr) (out_of_scope_list scope_domains : List PyStr)
    (allow_wildcards : Bool) : List PyStr × List PyStr :=
  urls.foldl
    (fun acc url =>
      match classifyUrl url out_of_scope_list scope_domains allow_wildcards with
      | Verdict.IN_SCOPE => (acc.1 ++ [url], acc.2)
      | Verdict.OUT_OF_SCOPE => (acc.1, acc.2 ++ [url]))
    ([], [])

example : extract_domain "https://api.example.com/v1".data = some "api.example.com".data := by decide
example : extract_domain "www.x.com/p".data = some "x.com".data := by decide
example : extract_domain "/x".data = none := by decide
example : extract_domain "https://".data = some "https".data := by decide
example : processDomainLine "https://www.example.com/".data = "example.com".data := by decide
example : processDomainLine "www.www.example.com".data = "www.example.com".data := by decide
example : classifyUrl "https://dev.example.com/login".data ["dev.example.com".data]
    ["example.com".data] true = Verdict.OUT_OF_SCOPE := by decide
example : classifyUrl "https://api.example.com/v1".data [] ["example.com".data] true
    = Verdict.IN_SCOPE := by decide
example : classifyUrl "sub.example.com".data [] ["example.com".data] false
    = Verdict.OUT_OF_SCOPE := by decide

/-! ## Lemmas about the scope classifier -/

theorem matchHostTail_shape {s d : PyStr} (h : matchHostTail s = some d) :
    d ≠ [] ∧ ∀ c ∈ d, ¬(c = '/' ∨ c = ':') := by
  unfold matchHostTail at h
  split at h
  · exact Option.noConfusion h
  · next hne =>
    have hd := Option.some.inj h
    subst hd
    refine ⟨hne, ?_⟩
    intro c hc
    have := List.mem_takeWhile_imp hc
    simpa using this

theorem afterWww_shape {s d : PyStr} (h : afterWww s = some d) :
    d ≠ [] ∧ ∀ c ∈ d, ¬(c = '/' ∨ c = ':') := by
  unfold afterWww at h
  split at h
  · cases h1 : matchHostTail (s.drop 4) with
    | some d1 => rw [h1] at h; exact Option.some.inj h ▸ matchHostTail_shape h1
    | none => rw [h1] at h; exact matchHostTail_shape h
  · exact matchHostTail_shape h

theorem extract_domain_shape {url d : PyStr} (h : extract_domain url = some d) :
    d ≠ [] ∧ ∀ c ∈ d, ¬(c = '/' ∨ c = ':') := by
  unfold extract_domain at h
  split at h
  · cases h1 : afterWww (url.drop 8) with
    | some d1 => rw [h1] at h; exact Option.some.inj h ▸ afterWww_shape h1
    | none => rw [h1] at h; exact afterWww_shape h
  · split at h
    · cases h1 : afterWww (url.drop 7) with
      | some d1 => rw [h1] at h; exact Option.some.inj h ▸ afterWww_shape h1
      | none => rw [h1] at h; exact afterWww_shape h
    · exact afterWww_shape h

theorem partitionUrls_eq (urls oos scope : List PyStr) (w : Bool) :
    partitionUrls urls oos scope w =
      (urls.filter (fun u => classifyUrl u oos scope w == Verdict.IN_SCOPE),
       urls.filter (fun u => classifyUrl u oos scope w == Verdict.OUT_OF_SCOPE)) := by
  have aux : ∀ (us : List PyStr) (acc : List PyStr × List PyStr),
      us.foldl
        (fun acc url =>
          match classifyUrl url oos scope w with
          | Verdict.IN_SCOPE => (acc.1 ++ [url], acc.2)
          | Verdict.OUT_OF_SCOPE => (acc.1, acc.2 ++ [url]))
        acc =
      (acc.1 ++ us.filter (fun u => classifyUrl u oos scope w == Verdict.IN_SCOPE),
       acc.2 ++ us.filter (fun u => classifyUrl u oos scope w == Verdict.OUT_OF_SCOPE)) := by
    intro us
    induction us with
    | nil => intro acc; simp
    | cons u rest ih =>
      intro acc
      cases hv : classifyUrl u oos scope w with
      | IN_SCOPE => simp [List.filter_cons, hv, ih]
      | OUT_OF_SCOPE => simp [List.filter_cons, hv, ih]
  unfold partitionUrls
  rw [aux]
  simp

/-! ## Claim C2: out-of-scope precedence -/

/-- C2: for every URL whose extracted domain equals an out-of-scope
pattern or is a dot-subdomain of one, the verdict is OUT_OF_SCOPE,
for every wildcard flag and every scope list (in particular even when
the domain also matches an in-scope pattern); the out-of-scope check
is evaluated before the in-scope check. -/
theorem C2_oos_precedence (url d : PyStr) (oos scope : List PyStr) (w : Bool)
    (hd : extract_domain url = some d) (p : PyStr) (hp : p ∈ oos)
    (hmatch : d = p ∨ ('.' :: p).isSuffixOf d = true) :
    classifyUrl url oos scope w = Verdict.OUT_OF_SCOPE := by
  unfold classifyUrl
  rw [hd]
  have hm : oosMatch d oos = true := by
    unfold oosMatch
    rw [List.any_eq_true]
    refine ⟨p, hp, ?_⟩
    rcases hmatch with h | h
    · simp [h]
    · simp [h]
  simp [hm]

/-- Witness for C2 at the spec example: dev.example.com is excluded even
though example.com is in scope with wildcards on. -/
theorem C2_oos_precedence_witness :
    classifyUrl "https://dev.example.com/login".data ["dev.example.com".data]
      ["example.com".data] true = Verdict.OUT_OF_SCOPE :=
  C2_oos_precedence "https://dev.example.com/login".data "dev.example.com".data
    ["dev.example.com".data] ["example.com".data] true (by decide)
    "dev.example.com".data (by decide) (by decide)

/-! ## Claim C3: in-scope semantics under the wildcard policy -/

/-- C3: for a URL whose extracted domain is not excluded by the
out-of-scope check, with wildcards enabled the verdict is IN_SCOPE iff
the domain equals some scope pattern or is a dot-subdomain of it; with
wildcards disabled it is IN_SCOPE iff it equals some pattern, or equals
the www-variant of the pattern, or its own www-variant equals the
pattern. -/
theorem C3_in_scope_semantics (url d : PyStr) (oos scope : List PyStr)
    (hd : extract_domain url = some d) (hno : oosMatch d oos = false) :
    (classifyUrl url oos scope true = Verdict.IN_SCOPE ↔
      ∃ p ∈ scope, d = p ∨ ('.' :: p).isSuffixOf d = true) ∧
    (classifyUrl url oos scope false = Verdict.IN_SCOPE ↔
      ∃ p ∈ scope, d = p ∨ d = "www.".data ++ p ∨ "www.".data ++ d = p) := by
  constructor
  · unfold classifyUrl
    rw [hd]
    simp only [hno, Bool.false_eq_true, if_false]
    constructor
    · intro h
      by_cases hin : is_in_scope d scope true
      · unfold is_in_scope at hin
        rw [List.any_eq_true] at hin
        obtain ⟨p, hp, hmatch⟩ := hin
        refine ⟨p, hp, ?_⟩
        unfold domain_in_scope at hmatch
        simpa using hmatch
      · simp [hin] at h
    · intro ⟨p, hp, hmatch⟩
      have hin : is_in_scope d scope true = true := by
        unfold is_in_scope
        rw [List.any_eq_true]
        refine ⟨p, hp, ?_⟩
        unfold domain_in_scope
        simpa using hmatch
      simp [hin]
  · unfold classifyUrl
    rw [hd]
    simp only [hno, Bool.false_eq_true, if_false]
    constructor
    · intro h
      by_cases hin : is_in_scope d scope false
      · unfold is_in_scope at hin
        rw [List.any_eq_true] at hin
        obtain ⟨p, hp, hmatch⟩ := hin
        refine ⟨p, hp, ?_⟩
        unfold domain_in_scope at hmatch
        simpa using hmatch
      · simp [hin] at h
    · intro ⟨p, hp, hmatch⟩
      have hin : is_in_scope d scope false = true := by
        unfold is_in_scope
        rw [List.any_eq_true]
        refine ⟨p, hp, ?_⟩
        unfold domain_in_scope
        simpa using hmatch
      simp [hin]

/-- Witness for C3: sub.example.com against scope pattern example.com is
IN_SCOPE with wildcards enabled and OUT_OF_SCOPE with them disabled. -/
theorem C3_in_scope_semantics_witness :
    classifyUrl "sub.example.com".data [] ["example.com".data] true = Verdict.IN_SCOPE ∧
    classifyUrl "sub.example.com".data [] ["example.com".data] false = Verdict.OUT_OF_SCOPE := by
  have h := C3_in_scope_semantics "sub.example.com".data "sub.example.com".data []
    ["example.com".data] (by decide) (by decide)
  constructor
  · exact h.1.mpr ⟨"example.com".data, by decide, by decide⟩
  · have h2 := h.2
    cases hv : classifyUrl "sub.example.com".data [] ["example.com".data] false with
    | IN_SCOPE =>
      exfalso
      obtain ⟨p, hp, hmatch⟩ := h2.mp hv
      have : p = "example.com".data := by simpa using hp
      subst this
      revert hmatch
      decide
    | OUT_OF_SCOPE => rfl

/-! ## Claim C9: failed extraction fails closed -/

/-- C9: when no domain can be extracted from a URL, the classifier
verdict is OUT_OF_SCOPE and the URL lands in the out-of-scope
partition of process_urls. -/
theorem C9_fail_closed (url : PyStr) (oos scope urls : List PyStr) (w : Bool)
    (h : extract_domain url = none) (hu : url ∈ urls) :
    classifyUrl url oos scope w = Verdict.OUT_OF_SCOPE ∧
    url ∈ (partitionUrls urls oos scope w).2 := by
  have hc : classifyUrl url oos scope w = Verdict.OUT_OF_SCOPE := by
    unfold classifyUrl
    rw [h]
  refine ⟨hc, ?_⟩
  rw [partitionUrls_eq]
  simp only
  rw [List.mem_filter]
  exact ⟨hu, by simp [hc]⟩

/-- Witness for C9 on a URL with no host-like substring. -/
theorem C9_fail_closed_witness :
    classifyUrl "/x".data [] ["example.com".data] true = Verdict.OUT_OF_SCOPE ∧
    "/x".data ∈ (partitionUrls ["/x".data] [] ["example.com".data] true).2 :=
  C9_fail_closed "/x".data [] ["example.com".data] ["/x".data] true
    (by decide) (by decide)

/-! ## Claim C10: extracted domains contain no slash and no colon -/

/-- C10: the domain extractor returns nothing or a nonempty string free
of slash and colon characters, so no compared domain carries a path
component or a port. -/
theorem C10_domain_free_of_path_and_port (url d : PyStr)
    (h : extract_domain url = some d) :
    d ≠ [] ∧ ∀ c ∈ d, c ≠ '/' ∧ c ≠ ':' := by
  obtain ⟨hne, hall⟩ := extract_domain_shape h
  refine ⟨hne, ?_⟩
  intro c hc
  have := hall c hc
  exact ⟨fun h1 => this (Or.inl h1), fun h2 => this (Or.inr h2)⟩

/-- Witness for C10 on a URL with scheme, port and path. -/
theorem C10_domain_free_of_path_and_port_witness :
    "example.com".data ≠ [] ∧
    ∀ c ∈ ("example.com".data : PyStr), c ≠ '/' ∧ c ≠ ':' :=
  C10_domain_free_of_path_and_port "http://example.com:8080/a/b".data
    "example.com".data (by decide)

/-! ## Claim C8: pattern normalization on load -/

/-- The claim as stated: every stored pattern has been freed of a
leading scheme, of a leading www-dot and of trailing slashes, so that
no stored pattern begins with http://, https:// or www. and none ends
with a slash. -/
def C8Statement : Prop :=
  ∀ (lines : List PyStr) (p : PyStr), p ∈ read_domains lines →
    ("http://".data).isPrefixOf p = false ∧
    ("https://".data).isPrefixOf p = false ∧
    ("www.".data).isPrefixOf p = false ∧
    p.getLast? ≠ some '/'

/-- Counterexample to C8 as stated: the loader strips each decoration
once, in the order scheme, slashes, www-dot; the line
www.www.example.com stores the pattern www.example.com, which still
begins with www. -/
theorem C8_counterexample : ¬ C8Statement := by
  intro h
  have := h ["www.www.example.com".data] "www.example.com".data (by decide)
  have hw := this.2.2.1
  revert hw
  decide

/-- C8 amended: each stored pattern comes from a nonblank line by
removing one leading scheme prefix if present, then all trailing
slashes, then one leading www-dot if present; consequently no stored
pattern ends with a slash, but a stored pattern may still begin with a
scheme or with www-dot (for instance from a doubled prefix). -/
theorem C8_amended (lines : List PyStr) (p : PyStr) (hp : p ∈ read_domains lines) :
    p.getLast? ≠ some '/' ∧
    ∃ l ∈ lines, pyStrip l ≠ [] ∧ p = processDomainLine (pyStrip l) := by
  unfold read_domains at hp
  rw [List.mem_filterMap] at hp
  obtain ⟨l, hl, hfl⟩ := hp
  have hstrip : pyStrip l ≠ [] ∧ p = processDomainLine (pyStrip l) := by
    by_cases he : pyStrip l = []
    · simp [he] at hfl
    · simp only [he, if_false] at hfl
      exact ⟨he, (Option.some.inj hfl).symm⟩
  refine ⟨?_, l, hl, hstrip⟩
  -- no stored pattern ends with a slash
  rw [hstrip.2]
  unfold processDomainLine
  intro hlast
  -- the result is a suffix of the rstripped string, whose last char is not a slash
  set s1 := if ("https://".data).isPrefixOf (pyStrip l) then (pyStrip l).drop 8
            else if ("http://".data).isPrefixOf (pyStrip l) then (pyStrip l).drop 7
            else pyStrip l with hs1
  set s2 := pyRstripChar '/' s1 with hs2
  have hs2last : s2.getLast? ≠ some '/' := by
    rw [hs2]
    unfold pyRstripChar
    intro hcon
    rw [List.getLast?_reverse] at hcon
    rcases hh : List.dropWhile (fun c => c = '/') s1.reverse with _ | ⟨a, rest⟩
    · rw [hh] at hcon; exact Option.noConfusion hcon
    · rw [hh] at hcon
      have ha : a = '/' := by simpa using hcon
      have := List.head_dropWhile_not (fun c => c = '/') (l := s1.reverse)
      rw [hh] at this
      simp only [List.head_cons] at this
      rw [ha] at this
      simp at this
  by_cases hw : ("www.".data).isPrefixOf s2
  · simp only [hw, if_true] at hlast
    -- a drop of s2 is a suffix of s2; its last element is the last of s2
    have hsuf : (s2.drop 4) <:+ s2 := List.drop_suffix 4 s2
    rcases hne : s2.drop 4 with _ | ⟨a, rest⟩
    · rw [hne] at hlast; exact Option.noConfusion hlast
    · have : s2.getLast? = some '/' := by
        obtain ⟨t, ht⟩ := hsuf
        rw [← ht]
        rw [hne] at hlast ⊢
        rw [List.getLast?_append_of_ne_nil]
        · exact hlast
        · exact List.noConfusion
      exact hs2last this
  · simp only [hw, if_false] at hlast
    exact hs2last hlast

/-- Witness for C8 amended, on a line carrying scheme, www-dot and a
trailing slash. -/
theorem C8_amended_witness :
    ("example.com".data : PyStr).getLast? ≠ some '/' ∧
    ∃ l ∈ [("https://www.example.com/".data : PyStr)], pyStrip l ≠ [] ∧
      "example.com".data = processDomainLine (pyStrip l) :=
  C8_amended ["https://www.example.com/".data] "example.com".data (by decide)

/-! ## UTF-8 bytes, percent quoting and unquoting (urllib.parse.quote_plus,
urllib.parse.unquote), as used by parse_qsl and urlencode -/

/-- UTF-8 encoding of one character, bytes as natural numbers. -/
def utf8EncodeCharM (c : Char) : List Nat :=
  let n := c.toNat
  if n < 0x80 then [n]
  else if n < 0x800 then [0xC0 + n / 64, 0x80 + n % 64]
  else if n < 0x10000 then
    [0xE0 + n / 4096, 0x80 + (n / 64) % 64, 0x80 + n % 64]
  else
    [0xF0 + n / 0x40000, 0x80 + (n / 4096) % 64, 0x80 + (n / 64) % 64, 0x80 + n % 64]

/-- UTF-8 encoding of a string, bytes as natural numbers. -/
def utf8EncodeM (s : PyStr) : List Nat := s.flatMap utf8EncodeCharM

/-- The replacement character emitted by the utf-8 codec under
errors equal to replace. -/
def uRepl : Char := Char.ofNat 0xFFFD

/-- CPython utf-8 decoding with errors equal to replace: one
replacement character per maximal subpart of an ill-formed sequence. -/
def utf8DecodeReplace : List Nat → PyStr
  | [] => []
  | b :: rest =>
    if b < 0x80 then Char.ofNat b :: utf8DecodeReplace rest
    else if b < 0xC2 then uRepl :: utf8DecodeReplace rest
    else if b < 0xE0 then
      match rest with
      | [] => [uRepl]
      | b1 :: rest1 =>
        if 0x80 ≤ b1 ∧ b1 < 0xC0 then
          Char.ofNat ((b - 0xC0) * 64 + (b1 - 0x80)) :: utf8DecodeReplace rest1
        else uRepl :: utf8DecodeReplace (b1 :: rest1)
    else if b < 0xF0 then
      match rest with
      | [] => [uRepl]
      | b1 :: rest1 =>
        if (if b = 0xE0 then 0xA0 ≤ b1 ∧ b1 < 0xC0
            else if b = 0xED then 0x80 ≤ b1 ∧ b1 < 0xA0
            else 0x80 ≤ b1 ∧ b1 < 0xC0) then
          match rest1 with
          | [] => [uRepl]
          | b2 :: rest2 =>
            if 0x80 ≤ b2 ∧ b2 < 0xC0 then
              Char.ofNat ((b - 0xE0) * 4096 + (b1 - 0x80) * 64 + (b2 - 0x80)) ::
                utf8DecodeReplace rest2
            else uRepl :: utf8DecodeReplace (b2 :: rest2)
        else uRepl :: utf8DecodeReplace (b1 :: rest1)
    else if b < 0xF5 then
      match rest with
      | [] => [uRepl]
      | b1 :: rest1 =>
        if (if b = 0xF0 then 0x90 ≤ b1 ∧ b1 < 0xC0
            else if b = 0xF4 then 0x80 ≤ b1 ∧ b1 < 0x90
            else 0x80 ≤ b1 ∧ b1 < 0xC0) then
          match rest1 with
          | [] => [uRepl]
          | b2 :: rest2 =>
            if 0x80 ≤ b2 ∧ b2 < 0xC0 then
              match rest2 with
              | [] => [uRepl]
              | b3 :: rest3 =>
                if 0x80 ≤ b3 ∧ b3 < 0xC0 then
                  Char.ofNat ((b - 0xF0) * 0x40000 + (b1 - 0x80) * 4096 +
                      (b2 - 0x80) * 64 + (b3 - 0x80)) :: utf8DecodeReplace rest3
                else uRepl :: utf8DecodeReplace (b3 :: rest3)
            else uRepl :: utf8DecodeReplace (b2 :: rest2)
        else uRepl :: utf8DecodeReplace (b1 :: rest1)
    else uRepl :: utf8DecodeReplace rest

/-- Bytes considered always safe by urllib quoting: ASCII letters,
digits, underscore, dot, hyphen and tilde. -/
def isSafeByte (b : Nat) : Bool :=
  (48 ≤ b ∧ b ≤ 57) ∨ (65 ≤ b ∧ b ≤ 90) ∨ (97 ≤ b ∧ b ≤ 122) ∨
  b = 95 ∨ b = 46 ∨ b = 45 ∨ b = 126

/-- Upper-case hexadecimal digit for a value below sixteen. -/
def hexUpper (n : Nat) : Char :=
  if n < 10 then Char.ofNat (48 + n) else Char.ofNat (55 + n)

/-- One byte as emitted by urllib.parse.quote_plus: a space becomes a
plus sign, safe bytes stay themselves, everything else is
percent-escaped with upper-case hex digits. -/
def quoteByte (b : Nat) : PyStr :=
  if b = 32 then ['+']
  else if isSafeByte b then [Char.ofNat b]
  else ['%', hexUpper (b / 16), hexUpper (b % 16)]

/-- urllib.parse.quote_plus with the default safe set: utf-8 encode,
then quote each byte, spaces as plus signs. -/
def quote_plus (s : PyStr) : PyStr := (utf8EncodeM s).flatMap quoteByte

/-- Hexadecimal digit test (both cases), as in the percent-decoding
table of urllib.parse. -/
def isHexDigit (c : Char) : Bool :=
  ('0' ≤ c ∧ c ≤ '9') ∨ ('A' ≤ c ∧ c ≤ 'F') ∨ ('a' ≤ c ∧ c ≤ 'f')

/-- Value of a hexadecimal digit. -/
def hexVal (c : Char) : Nat :=
  if '0' ≤ c ∧ c ≤ '9' then c.toNat - 48
  else if 'A' ≤ c ∧ c ≤ 'F' then c.toNat - 55
  else c.toNat - 87

/-- urllib.parse.unquote_to_bytes on an ASCII run: literal characters
keep their code, a percent sign followed by two hex digits yields that
byte, a percent sign not followed by two hex digits stays literal. -/
def unquoteBytes : PyStr → List Nat
  | '%' :: c1 :: c2 :: rest =>
    if isHexDigit c1 ∧ isHexDigit c2 then
      (hexVal c1 * 16 + hexVal c2) :: unquoteBytes rest
    else 37 :: unquoteBytes (c1 :: c2 :: rest)
  | c :: rest => c.toNat :: unquoteBytes rest
  | [] => []

/-- Maximal runs of ASCII and non-ASCII characters, tagged with
whether the run is ASCII; this mirrors the split on the ASCII-run
regex inside urllib.parse.unquote. -/
def asciiRuns : PyStr → List (Bool × PyStr)
  | [] => []
  | c :: rest =>
    match asciiRuns rest with
    | (b, run) :: more =>
      if b = (c.toNat < 128 : Bool) then (b, c :: run) :: more
      else ((c.toNat < 128 : Bool), [c]) :: (b, run) :: more
    | [] => [((c.toNat < 128 : Bool), [c])]

/-- urllib.parse.unquote with utf-8 and errors equal to replace: a
string without a percent sign is returned unchanged; otherwise each
maximal ASCII run is percent-decoded to bytes and utf-8 decoded with
replacement, and non-ASCII runs pass through untouched. -/
def unquote (s : PyStr) : PyStr :=
  if '%' ∈ s then
    (asciiRuns s).flatMap fun br =>
      if br.1 then utf8DecodeReplace (unquoteBytes br.2) else br.2
  else s

/-- The name and value decoding step of parse_qsl: replace plus signs
by spaces, then unquote. -/
def unquotePlus (s : PyStr) : PyStr :=
  unquote (s.map fun c => if c = '+' then ' ' else c)

example : quote_plus "a b+c".data = "a+b%2Bc".data := by decide
example : quote_plus "FUZZ".data = "FUZZ".data := by decide
example : unquotePlus "a+b%2Bc".data = "a b+c".data := by decide
example : unquote "%41%λ%4".data = ('A' :: "%λ%4".data) := by decide

/-! ## urllib.parse: urlsplit, urlparse, urlunsplit, urlunparse -/

/-- Result of urllib.parse.urlsplit. -/
structure UrlSplitResult where
  scheme : PyStr
  netloc : PyStr
  path : PyStr
  query : PyStr
  fragment : PyStr
deriving DecidableEq, Repr

/-- Result of urllib.parse.urlparse. -/
structure UrlParseResult where
  scheme : PyStr
  netloc : PyStr
  path : PyStr
  params : PyStr
  query : PyStr
  fragment : PyStr
deriving DecidableEq, Repr

/-- The input sanitization of urlsplit: strip leading C0-control and
space characters, then remove every tab, carriage return and line
feed. -/
def sanitizeUrl (u : PyStr) : PyStr :=
  (u.dropWhile fun c => c.toNat ≤ 32).filter fun c => ¬(c = '\t' ∨ c = '\r' ∨ c = '\n')

/-- The characters allowed after the first one in a URL scheme. -/
def isSchemeChar (c : Char) : Bool :=
  c.isAlpha ∨ c.isDigit ∨ c = '+' ∨ c = '-' ∨ c = '.'

/-- The scheme-detection step of urlsplit: a colon at a positive
index, an ASCII letter first, scheme characters up to the colon; on
success the scheme is lower-cased and the remainder follows the
colon, otherwise the whole string remains. -/
def schemeSplit (u : PyStr) : PyStr × PyStr :=
  match splitFirst ':' u with
  | (before, some after) =>
    match before with
    | [] => ([], u)
    | b0 :: btail =>
      if b0.isAlpha ∧ btail.all isSchemeChar then (pyLower (b0 :: btail), after)
      else ([], u)
  | (_, none) => ([], u)

/-- The network-location split of urlsplit, applied after the two
leading slashes: the netloc runs up to the first slash, question mark
or hash. -/
def splitNetloc (u : PyStr) : PyStr × PyStr :=
  (u.takeWhile (fun c => ¬(c = '/' ∨ c = '?' ∨ c = '#')),
   u.dropWhile (fun c => ¬(c = '/' ∨ c = '?' ∨ c = '#')))

/-- The fragment and query splits of urlsplit (fragments allowed, as
in the default). -/
def fragQuerySplit (scheme netloc rest : PyStr) : UrlSplitResult :=
  let fr := splitFirst '#' rest
  let qr := splitFirst '?' fr.1
  ⟨scheme, netloc, qr.1, qr.2.getD [], fr.2.getD []⟩

/-- urllib.parse.urlsplit.  The error case models the ValueError that
urlsplit raises on a bracket mismatch in the network location (the
message Invalid IPv6 URL); this is the exception path normalize_url
catches. -/
def urlsplitE (url : PyStr) : Except PyStr UrlSplitResult :=
  let u := sanitizeUrl url
  let sr := schemeSplit u
  if (['/', '/'] : PyStr).isPrefixOf sr.2 then
    let nl := splitNetloc (sr.2.drop 2)
    if ('[' ∈ nl.1 ∧ ¬ ']' ∈ nl.1) ∨ (']' ∈ nl.1 ∧ ¬ '[' ∈ nl.1) then
      Except.error "Invalid IPv6 URL".data
    else Except.ok (fragQuerySplit sr.1 nl.1 nl.2)
  else Except.ok (fragQuerySplit sr.1 [] sr.2)

/-- The parameter split of urlparse: from the first semicolon at or
after the last slash, or from the first semicolon when there is no
slash. -/
def splitparams (p : PyStr) : PyStr × PyStr :=
  if '/' ∈ p then
    let suf := (p.reverse.takeWhile fun c => ¬(c = '/')).reverse
    let pre := (p.reverse.dropWhile fun c => ¬(c = '/')).reverse
    match splitFirst ';' suf with
    | (b1, some b2) => (pre ++ b1, b2)
    | (_, none) => (p, [])
  else
    match splitFirst ';' p with
    | (b1, some b2) => (b1, b2)
    | (_, none) => (p, [])

/-- The schemes that use a network location (urllib.parse.uses_netloc,
Python 3.11). -/
def uses_netloc : List PyStr :=
  ["".data, "ftp".data, "http".data, "gopher".data, "nntp".data, "telnet".data,
   "imap".data, "wais".data, "file".data, "mms".data, "https".data, "shttp".data,
   "snews".data, "prospero".data, "rtsp".data, "rtsps".data, "rtspu".data,
   "rsync".data, "svn".data, "svn+ssh".data, "sftp".data, "nfs".data, "git".data,
   "git+ssh".data, "ws".data, "wss".data]

/-- The schemes that use path parameters (urllib.parse.uses_params,
Python 3.11). -/
def uses_params : List PyStr :=
  ["".data, "ftp".data, "hdl".data, "prospero".data, "http".data, "imap".data,
   "https".data, "shttp".data, "rtsp".data, "rtsps".data, "rtspu".data,
   "sip".data, "sips".data, "mms".data, "sftp".data, "tel".data]

/-- urllib.parse.urlparse: urlsplit plus the parameter split on the
path, performed only for schemes that use parameters and when the
path holds a semicolon. -/
def urlparseE (url : PyStr) : Except PyStr UrlParseResult :=
  match urlsplitE url with
  | Except.error e => Except.error e
  | Except.ok r =>
    if r.scheme ∈ uses_params ∧ ';' ∈ r.path then
      let pp := splitparams r.path
      Except.ok ⟨r.scheme, r.netloc, pp.1, pp.2, r.query, r.fragment⟩
    else Except.ok ⟨r.scheme, r.netloc, r.path, [], r.query, r.fragment⟩

/-- urllib.parse.urlunsplit (Python 3.11): the double slash is emitted
when there is a netloc, or when the scheme uses a network location and
the path does not already start with a double slash. -/
def urlunsplit (scheme netloc path query fragment : PyStr) : PyStr :=
  let url1 :=
    if netloc ≠ [] ∨ (scheme ≠ [] ∧ scheme ∈ uses_netloc ∧
        ¬ (['/', '/'] : PyStr).isPrefixOf path) then
      '/' :: '/' :: netloc ++
        (if path ≠ [] ∧ ¬ (['/'] : PyStr).isPrefixOf path then '/' :: path else path)
    else path
  let url2 := if scheme ≠ [] then scheme ++ ':' :: url1 else url1
  let url3 := if query ≠ [] then url2 ++ '?' :: query else url2
  if fragment ≠ [] then url3 ++ '#' :: fragment else url3

/-- urllib.parse.urlunparse. -/
def urlunparse (scheme netloc path params query fragment : PyStr) : PyStr :=
  urlunsplit scheme netloc (if params ≠ [] then path ++ ';' :: params else path)
    query fragment

/-! ## urllib.parse: parse_qsl, parse_qs, urlencode -/

/-- urllib.parse.parse_qsl with blank values kept, separator the
ampersand: empty pieces are skipped, a piece without an equals sign
keeps an empty value, names and values are plus-decoded and
unquoted. -/
def parse_qsl (qs : PyStr) : List (PyStr × PyStr) :=
  (pySplit '&' qs).filterMap fun piece =>
    if piece = [] then none
    else
      match splitFirst '=' piece with
      | (nm, some v) => some (unquotePlus nm, unquotePlus v)
      | (nm, none) => some (unquotePlus nm, unquotePlus [])

/-- One grouping step of parse_qs: append the value to an existing
name or add a new name at the end (Python dicts preserve insertion
order). -/
def addQsPair (acc : List (PyStr × List PyStr)) (p : PyStr × PyStr) :
    List (PyStr × List PyStr) :=
  if acc.any (fun e => e.1 = p.1) then
    acc.map fun e => if e.1 = p.1 then (e.1, e.2 ++ [p.2]) else e
  else acc ++ [(p.1, [p.2])]

/-- urllib.parse.parse_qs with blank values kept: parse_qsl grouped by
name, names in first-occurrence order, values in occurrence order. -/
def parse_qs (qs : PyStr) : List (PyStr × List PyStr) :=
  (parse_qsl qs).foldl addQsPair []

/-- Python string comparison: strict lexicographic order by code
point. -/
def pyStrLt : PyStr → PyStr → Bool
  | [], [] => false
  | [], _ :: _ => true
  | _ :: _, [] => false
  | x :: xs, y :: ys =>
    if x.toNat < y.toNat then true
    else if y.toNat < x.toNat then false
    else pyStrLt xs ys

/-- Python comparison of lists of strings: strict lexicographic. -/
def strListLt : List PyStr → List PyStr → Bool
  | [], [] => false
  | [], _ :: _ => true
  | _ :: _, [] => false
  | x :: xs, y :: ys =>
    if pyStrLt x y then true
    else if pyStrLt y x then false
    else strListLt xs ys

/-- Python comparison of the pairs sorted by normalize_url: compare
names first, value lists on equal names (never reached here because
parse_qs names are distinct). -/
def pairLt (a b : PyStr × List PyStr) : Bool :=
  pyStrLt a.1 b.1 ∨ (a.1 = b.1 ∧ strListLt a.2 b.2)

/-- Stable insertion into a sorted list: an element passes those
strictly below it and stops before the rest. -/
def insertPair (x : PyStr × List PyStr) :
    List (PyStr × List PyStr) → List (PyStr × List PyStr)
  | [] => [x]
  | y :: ys => if pairLt y x then y :: insertPair x ys else x :: y :: ys

/-- Python sorted() on the item pairs.  Python uses a stable sort; any
two stable sorts by the same order compute the same list, so the model
uses stable insertion sort. -/
def sortPairs (l : List (PyStr × List PyStr)) : List (PyStr × List PyStr) :=
  l.foldr insertPair []

/-- urllib.parse.urlencode with doseq on a list of names with lists of
string values: one name-equals-value piece per value, joined by
ampersands, both sides quoted by quote_plus. -/
def urlencode_doseq (l : List (PyStr × List PyStr)) : PyStr :=
  List.intercalate ['&']
    (l.flatMap fun kv => kv.2.map fun v => quote_plus kv.1 ++ '=' :: quote_plus v)

/-! ## uniparams.py -/

/-- The sentinel token substituted for every parameter value. -/
def FUZZ : PyStr := "FUZZ".data

/-- uniparams.normalize_url: parse the URL, group and sort its query
parameters, give every parameter the single value FUZZ, and rebuild
the deduplication key (lower-cased scheme and netloc, no path) and the
output URL (original scheme, netloc and path); a parse error yields
nothing (the Python function prints a diagnostic and returns a pair of
None). -/
def normalize_url (url : PyStr) : Option (PyStr × PyStr) :=
  match urlparseE url with
  | Except.error _ => none
  | Except.ok r =>
    let sorted_params := sortPairs (parse_qs r.query)
    let normalized_params := sorted_params.map fun kv => (kv.1, [FUZZ])
    let normalized_query := urlencode_doseq normalized_params
    some (urlunparse (pyLower r.scheme) (pyLower r.netloc) [] [] normalized_query [],
          urlunparse r.scheme r.netloc r.path [] normalized_query [])

/-- The state of the deduplication loop of uniparams.deduplicate_urls:
the insertion-ordered key table, the three counters (the unique
counter is the length of the table) and the diagnostics emitted for
lines whose normalization raised. -/
structure DedupState where
  entries : List (PyStr × PyStr)
  total : Nat
  duplicates : Nat
  errors : List PyStr
deriving DecidableEq, Repr

/-- One line of the loop of uniparams.deduplicate_urls: strip the
line, skip it when blank, count it, then either record the diagnostic
of a failed normalization, insert a first-seen truthy key, count a
duplicate, or silently ignore a falsy (empty) key or URL. -/
def dedupStep (st : DedupState) (line : PyStr) : DedupState :=
  let url := pyStrip line
  if url = [] then st
  else
    match normalize_url url with
    | none => { st with total := st.total + 1, errors := st.errors ++ [url] }
    | some kn =>
      if kn.1 ≠ [] ∧ kn.2 ≠ [] then
        if st.entries.any (fun e => e.1 = kn.1) then
          { st with total := st.total + 1, duplicates := st.duplicates + 1 }
        else { st with total := st.total + 1, entries := st.entries ++ [kn] }
      else { st with total := st.total + 1 }

/-- uniparams.deduplicate_urls over the list of input lines. -/
def deduplicate_urls (lines : List PyStr) : DedupState :=
  lines.foldl dedupStep ⟨[], 0, 0, []⟩

/-- The output file written by deduplicate_urls: the stored normalized
URLs in insertion order. -/
def dedupOutput (lines : List PyStr) : List PyStr :=
  (deduplicate_urls lines).entries.map fun e => e.2

example : normalize_url "http://a.com/x?z=1&a=2".data
    = some ("http://a.com?a=FUZZ&z=FUZZ".data, "http://a.com/x?a=FUZZ&z=FUZZ".data) := by decide
example : normalize_url "abc".data = some ([], "abc".data) := by decide
example : normalize_url "http://[::1".data = none := by decide
example : normalize_url "http://h/?a=1&a=2".data
    = some ("http://h?a=FUZZ".data, "http://h/?a=FUZZ".data) := by decide
example : normalize_url "HTTP://A.com/p;q?b=%41#f".data
    = some ("http://a.com?b=FUZZ".data, "http://A.com/p?b=FUZZ".data) := by decide

example : normalize_url "http:/p?x=1".data
    = some ("http://?x=FUZZ".data, "http:///p?x=FUZZ".data) := by decide
example : normalize_url "s:////[x?q=1".data
    = some ("s:?q=FUZZ".data, "s://[x?q=FUZZ".data) := by decide
example : normalize_url "s://[x?q=FUZZ".data = none := by decide
example : normalize_url "/////p?a=1".data
    = some ("?a=FUZZ".data, "///p?a=FUZZ".data) := by decide
example : normalize_url "///p?a=FUZZ".data
    = some ("?a=FUZZ".data, "/p?a=FUZZ".data) := by decide
example : normalize_url "xyz://h/a;b?q=1".data
    = some ("xyz://h?q=FUZZ".data, "xyz://h/a;b?q=FUZZ".data) := by decide

/-! ## Permutation and grouping lemmas for the query machinery -/

theorem insertPair_perm (x : PyStr × List PyStr) (l : List (PyStr × List PyStr)) :
    (insertPair x l).Perm (x :: l) := by
  induction l with
  | nil => simp [insertPair]
  | cons y ys ih =>
    unfold insertPair
    split
    · exact (ih.cons y).trans (List.Perm.swap x y ys)
    · exact List.Perm.refl _

theorem sortPairs_perm (l : List (PyStr × List PyStr)) : (sortPairs l).Perm l := by
  induction l with
  | nil => exact List.Perm.refl _
  | cons a t ih =>
    have h1 : sortPairs (a :: t) = insertPair a (sortPairs t) := rfl
    rw [h1]
    exact (insertPair_perm a (sortPairs t)).trans (ih.cons a)

theorem addQsPair_map_fst (acc : List (PyStr × List PyStr)) (p : PyStr × PyStr) :
    (addQsPair acc p).map Prod.fst =
      if (acc.any fun e => e.1 = p.1) then acc.map Prod.fst
      else acc.map Prod.fst ++ [p.1] := by
  by_cases hc : (acc.any fun e => e.1 = p.1) = true
  · simp only [addQsPair, hc, if_true]
    rw [List.map_map]
    apply List.map_congr_left
    intro e he
    by_cases h2 : e.1 = p.1 <;> simp [h2]
  · simp only [addQsPair, Bool.not_eq_true] at hc ⊢
    simp [hc]

theorem foldl_addQs_keys (pairs : List (PyStr × PyStr)) :
    ∀ acc : List (PyStr × List PyStr), (acc.map Prod.fst).Nodup →
      (((pairs.foldl addQsPair acc).map Prod.fst).Nodup ∧
       ∀ nm, nm ∈ (pairs.foldl addQsPair acc).map Prod.fst ↔
         nm ∈ acc.map Prod.fst ∨ nm ∈ pairs.map Prod.fst) := by
  induction pairs with
  | nil => intro acc h; exact ⟨h, fun nm => by simp⟩
  | cons p ps ih =>
    intro acc h
    have hstep := addQsPair_map_fst acc p
    by_cases hc : (acc.any fun e => e.1 = p.1) = true
    · rw [if_pos hc] at hstep
      have hp1 : p.1 ∈ acc.map Prod.fst := by
        rw [List.any_eq_true] at hc
        obtain ⟨e, he, hep⟩ := hc
        rw [List.mem_map]
        exact ⟨e, he, by simpa using hep⟩
      have hnd : ((addQsPair acc p).map Prod.fst).Nodup := hstep ▸ h
      obtain ⟨ih1, ih2⟩ := ih (addQsPair acc p) hnd
      refine ⟨ih1, fun nm => ?_⟩
      rw [List.foldl_cons, ih2 nm, hstep, List.map_cons, List.mem_cons]
      constructor
      · intro hh
        rcases hh with hh | hh
        · exact Or.inl hh
        · exact Or.inr (Or.inr hh)
      · intro hh
        rcases hh with hh | hh | hh
        · exact Or.inl hh
        · exact Or.inl (hh ▸ hp1)
        · exact Or.inr hh
    · rw [if_neg hc] at hstep
      have hp1 : p.1 ∉ acc.map Prod.fst := by
        intro hmem
        apply hc
        rw [List.any_eq_true]
        rw [List.mem_map] at hmem
        obtain ⟨e, he, hep⟩ := hmem
        exact ⟨e, he, by simpa using hep⟩
      have hnd : ((addQsPair acc p).map Prod.fst).Nodup := by
        rw [hstep]
        rw [List.nodup_append]
        exact ⟨h, List.nodup_singleton _, by simpa using hp1⟩
      obtain ⟨ih1, ih2⟩ := ih (addQsPair acc p) hnd
      refine ⟨ih1, fun nm => ?_⟩
      rw [List.foldl_cons, ih2 nm, hstep, List.map_cons, List.mem_cons]
      constructor
      · intro hh
        rcases hh with hh | hh
        · rcases List.mem_append.mp hh with hh2 | hh2
          · exact Or.inl hh2
          · exact Or.inr (Or.inl (by simpa using hh2))
        · exact Or.inr (Or.inr hh)
      · intro hh
        rcases hh with hh | hh | hh
        · exact Or.inl (List.mem_append.mpr (Or.inl hh))
        · exact Or.inl (List.mem_append.mpr (Or.inr (by simp [hh])))
        · exact Or.inr hh

theorem parse_qs_keys_nodup (qs : PyStr) : ((parse_qs qs).map Prod.fst).Nodup :=
  (foldl_addQs_keys (parse_qsl qs) [] (by simp)).1

theorem parse_qs_keys_mem (qs : PyStr) (nm : PyStr) :
    nm ∈ (parse_qs qs).map Prod.fst ↔ nm ∈ (parse_qsl qs).map Prod.fst := by
  have := (foldl_addQs_keys (parse_qsl qs) [] (by simp)).2 nm
  unfold parse_qs
  rw [this]
  simp

theorem countP_key_eq_one {α : Type} (l : List (PyStr × α)) (nm : PyStr)
    (h : (l.map Prod.fst).Nodup) (hm : nm ∈ l.map Prod.fst) :
    l.countP (fun kv => kv.1 = nm) = 1 := by
  induction l with
  | nil => simp at hm
  | cons a t ih =>
    rw [List.map_cons, List.nodup_cons] at h
    rw [List.map_cons, List.mem_cons] at hm
    rcases hm with hm | hm
    · rw [List.countP_cons]
      have hz : t.countP (fun kv => kv.1 = nm) = 0 := by
        rw [List.countP_eq_zero]
        intro kv hkv
        simp only [decide_eq_true_eq]
        intro hkv1
        exact h.1 (hm ▸ hkv1 ▸ List.mem_map_of_mem Prod.fst hkv)
      simp [hz, hm.symm]
    · have hne : a.1 ≠ nm := fun hcon => h.1 (hcon ▸ hm)
      rw [List.countP_cons]
      simp [hne, ih h.2 hm]

instance {ε α : Type} [DecidableEq ε] [DecidableEq α] : DecidableEq (Except ε α) :=
  fun a b =>
    match a, b with
    | Except.ok x, Except.ok y =>
      if h : x = y then isTrue (h ▸ rfl)
      else isFalse fun hc => h (Except.ok.inj hc)
    | Except.error x, Except.error y =>
      if h : x = y then isTrue (h ▸ rfl)
      else isFalse fun hc => h (Except.error.inj hc)
    | Except.ok _, Except.error _ => isFalse Except.noConfusion
    | Except.error _, Except.ok _ => isFalse Except.noConfusion

/-! ## Claim C5: path independence on the spec example -/

/-- C5: the two URLs differing only in path and parameter values share
the key of scheme http, host a.com and name set a, z; the output is the
single normalized first URL and the duplicate counter reads one. -/
theorem C5_path_independence_example :
    dedupOutput ["http://a.com/x?z=1&a=2".data, "http://a.com/y?a=9&z=9".data]
      = ["http://a.com/x?a=FUZZ&z=FUZZ".data] ∧
    (deduplicate_urls ["http://a.com/x?z=1&a=2".data, "http://a.com/y?a=9&z=9".data]).duplicates = 1 := by
  constructor <;> decide

/-! ## Claim C6: repeated parameter names -/

/-- The list of name and value pairs that urlencode serializes for a
parsed query: one pair per value of each normalized parameter, in
order.  This is the reconstruction the normalizer feeds into the
normalized query string. -/
def reconstructedPairs (query : PyStr) : List (PyStr × PyStr) :=
  (((sortPairs (parse_qs query)).map fun kv => (kv.1, [FUZZ])).flatMap
    fun kv => kv.2.map fun v => (kv.1, v))

/-- The claim as stated: the reconstructed query preserves every
occurrence of a repeated name, one sentinel-valued entry per original
occurrence. -/
def C6Statement : Prop :=
  ∀ (url : PyStr) (r : UrlParseResult), urlparseE url = Except.ok r →
    ∀ nm : PyStr, 2 ≤ ((parse_qsl r.query).map Prod.fst).count nm →
      (reconstructedPairs r.query).count (nm, FUZZ)
        = ((parse_qsl r.query).map Prod.fst).count nm

/-- Counterexample to C6 as stated: for the query a=1&a=2 the code
replaces the whole value list of a by the single sentinel, so the
reconstruction carries one entry for a, not two. -/
theorem C6_counterexample : ¬ C6Statement := by
  intro h
  have := h "http://h/?a=1&a=2".data
    ⟨"http".data, "h".data, "/".data, [], "a=1&a=2".data, []⟩
    (by decide) "a".data (by decide)
  revert this
  decide

/-- C6 amended: every name of the query appears in the reconstruction
exactly once, with the sentinel as its only value, regardless of how
often the query repeated it. -/
theorem C6_amended (url : PyStr) (r : UrlParseResult)
    (h : urlparseE url = Except.ok r) (nm : PyStr)
    (hnm : nm ∈ (parse_qsl r.query).map Prod.fst) :
    (reconstructedPairs r.query).countP (fun kv => kv.1 = nm) = 1 ∧
    (nm, FUZZ) ∈ reconstructedPairs r.query := by
  have hperm : (sortPairs (parse_qs r.query)).Perm (parse_qs r.query) :=
    sortPairs_perm _
  have hnd : ((sortPairs (parse_qs r.query)).map Prod.fst).Nodup :=
    (hperm.map Prod.fst).nodup_iff.mpr (parse_qs_keys_nodup _)
  have hmem : nm ∈ (sortPairs (parse_qs r.query)).map Prod.fst := by
    rw [List.Perm.mem_iff (hperm.map Prod.fst)]
    exact (parse_qs_keys_mem _ _).mpr hnm
  -- the reconstruction lists exactly the sorted names, each with FUZZ
  have hshape : reconstructedPairs r.query
      = (sortPairs (parse_qs r.query)).map fun kv => (kv.1, FUZZ) := by
    unfold reconstructedPairs
    induction sortPairs (parse_qs r.query) with
    | nil => rfl
    | cons a t ih => simp_all
  rw [hshape]
  constructor
  · rw [List.countP_map]
    have : (List.countP ((fun kv => decide (kv.1 = nm)) ∘ fun kv => (kv.1, FUZZ))
        (sortPairs (parse_qs r.query)))
        = (sortPairs (parse_qs r.query)).countP (fun kv => kv.1 = nm) := by
      apply List.countP_congr
      intro kv hkv
      simp
    rw [this]
    exact countP_key_eq_one _ _ hnd hmem
  · rw [List.mem_map] at hmem ⊢
    obtain ⟨kv, hkv, hkv1⟩ := hmem
    exact ⟨kv, hkv, by rw [hkv1]⟩

/-- Witness for C6 amended at the query a=1&a=2: the name a appears
once with the sentinel in the reconstruction. -/
theorem C6_amended_witness :
    (reconstructedPairs "a=1&a=2".data).countP (fun kv => kv.1 = "a".data) = 1 ∧
    ("a".data, FUZZ) ∈ reconstructedPairs "a=1&a=2".data :=
  C6_amended "http://h/?a=1&a=2".data
    ⟨"http".data, "h".data, "/".data, [], "a=1&a=2".data, []⟩
    (by decide) "a".data (by decide)

/-! ## Claims C1 and C4: the deduplication loop -/

/-- The contribution of one input line to the key table: the stripped
line's key and normalized URL, present exactly when the line is
nonblank, parses, and both key and URL are truthy (nonempty). -/
def truthyEntry (line : PyStr) : Option (PyStr × PyStr) :=
  if pyStrip line = [] then none
  else
    match normalize_url (pyStrip line) with
    | none => none
    | some kn => if kn.1 ≠ [] ∧ kn.2 ≠ [] then some kn else none

/-- Insert an entry into the table when its key is new; otherwise
leave the table unchanged. -/
def insertEntry (acc : List (PyStr × PyStr)) (kn : PyStr × PyStr) :
    List (PyStr × PyStr) :=
  if acc.any (fun e => e.1 = kn.1) then acc else acc ++ [kn]

/-- Fold of insertEntry over a pair list. -/
def insertNewKeys (init : List (PyStr × PyStr)) (ps : List (PyStr × PyStr)) :
    List (PyStr × PyStr) :=
  ps.foldl insertEntry init

/-- First-occurrence deduplication of a key sequence: keep the first
copy of every key, in original order. -/
def dedupFirst : List PyStr → List PyStr
  | [] => []
  | k :: ks => k :: dedupFirst (ks.filter fun k2 => ¬(k2 = k))
termination_by l => l.length
decreasing_by
  simp only [List.length_cons]
  exact Nat.lt_succ_of_le (List.length_filter_le _ _)

/-- The diagnostics of the loop: the stripped nonblank lines whose
normalization raised. -/
def errLines (lines : List PyStr) : List PyStr :=
  lines.filterMap fun l =>
    if pyStrip l = [] then none
    else
      match normalize_url (pyStrip l) with
      | none => some (pyStrip l)
      | some _ => none

theorem dedup_master (lines : List PyStr) : ∀ st : DedupState,
    (lines.foldl dedupStep st).entries
        = insertNewKeys st.entries (lines.filterMap truthyEntry) ∧
    (lines.foldl dedupStep st).total
        = st.total + lines.countP (fun l => ¬(pyStrip l = [])) ∧
    (lines.foldl dedupStep st).errors = st.errors ++ errLines lines ∧
    (lines.foldl dedupStep st).entries.length + (lines.foldl dedupStep st).duplicates
        = st.entries.length + st.duplicates + (lines.filterMap truthyEntry).length := by
  induction lines with
  | nil => intro st; simp [insertNewKeys, errLines]
  | cons l ls ih =>
    intro st
    rw [List.foldl_cons]
    by_cases hb : pyStrip l = []
    · have hstep : dedupStep st l = st := by
        unfold dedupStep
        simp [hb]
      have hte : truthyEntry l = none := by simp [truthyEntry, hb]
      rw [hstep]
      obtain ⟨ih1, ih2, ih3, ih4⟩ := ih st
      refine ⟨?_, ?_, ?_, ?_⟩
      · rw [ih1, List.filterMap_cons, hte]
      · rw [ih2, List.countP_cons]
        simp [hb]
      · rw [ih3]
        unfold errLines
        rw [List.filterMap_cons]
        simp [hb]
      · rw [ih4, List.filterMap_cons, hte]
    · cases hn : normalize_url (pyStrip l) with
      | none =>
        have hstep : dedupStep st l
            = { st with total := st.total + 1, errors := st.errors ++ [pyStrip l] } := by
          unfold dedupStep
          simp [hb, hn]
        have hte : truthyEntry l = none := by simp [truthyEntry, hb, hn]
        rw [hstep]
        obtain ⟨ih1, ih2, ih3, ih4⟩ :=
          ih { st with total := st.total + 1, errors := st.errors ++ [pyStrip l] }
        refine ⟨?_, ?_, ?_, ?_⟩
        · rw [ih1, List.filterMap_cons, hte]
        · rw [ih2, List.countP_cons]
          simp [hb]
          omega
        · rw [ih3]
          unfold errLines
          rw [List.filterMap_cons]
          simp [hb, hn]
        · rw [ih4, List.filterMap_cons, hte]
      | some kn =>
        by_cases ht : kn.1 ≠ [] ∧ kn.2 ≠ []
        · have hte : truthyEntry l = some kn := by simp [truthyEntry, hb, hn, ht]
          by_cases hd : (st.entries.any fun e => e.1 = kn.1) = true
          · have hstep : dedupStep st l
                = { st with total := st.total + 1, duplicates := st.duplicates + 1 } := by
              unfold dedupStep
              simp [hb, hn, ht, hd]
            have hins : insertEntry st.entries kn = st.entries := by
              unfold insertEntry
              simp [hd]
            rw [hstep]
            obtain ⟨ih1, ih2, ih3, ih4⟩ :=
              ih { st with total := st.total + 1, duplicates := st.duplicates + 1 }
            refine ⟨?_, ?_, ?_, ?_⟩
            · rw [ih1, List.filterMap_cons, hte]
              unfold insertNewKeys
              rw [List.foldl_cons, hins]
            · rw [ih2, List.countP_cons]
              simp [hb]
              omega
            · rw [ih3]
              unfold errLines
              rw [List.filterMap_cons]
              simp [hb, hn]
            · rw [ih4, List.filterMap_cons, hte]
              show st.entries.length + (st.duplicates + 1)
                    + (List.filterMap truthyEntry ls).length
                  = st.entries.length + st.duplicates
                    + (kn :: List.filterMap truthyEntry ls).length
              simp only [List.length_cons]
              omega
          · have hstep : dedupStep st l
                = { st with total := st.total + 1, entries := st.entries ++ [kn] } := by
              unfold dedupStep
              simp [hb, hn, ht, hd]
            have hins : insertEntry st.entries kn = st.entries ++ [kn] := by
              unfold insertEntry
              simp [hd]
            rw [hstep]
            obtain ⟨ih1, ih2, ih3, ih4⟩ :=
              ih { st with total := st.total + 1, entries := st.entries ++ [kn] }
            refine ⟨?_, ?_, ?_, ?_⟩
            · rw [ih1, List.filterMap_cons, hte]
              unfold insertNewKeys
              rw [List.foldl_cons, hins]
            · rw [ih2, List.countP_cons]
              simp [hb]
              omega
            · rw [ih3]
              unfold errLines
              rw [List.filterMap_cons]
              simp [hb, hn]
            · rw [ih4, List.filterMap_cons, hte]
              show (st.entries ++ [kn]).length + st.duplicates
                    + (List.filterMap truthyEntry ls).length
                  = st.entries.length + st.duplicates
                    + (kn :: List.filterMap truthyEntry ls).length
              simp only [List.length_cons, List.length_append, List.length_nil]
              omega
        · have hte : truthyEntry l = none := by simp [truthyEntry, hb, hn, ht]
          have hstep : dedupStep st l = { st with total := st.total + 1 } := by
            unfold dedupStep
            simp only [hb, if_false]
            rw [hn]
            simp [ht]
          rw [hstep]
          obtain ⟨ih1, ih2, ih3, ih4⟩ := ih { st with total := st.total + 1 }
          refine ⟨?_, ?_, ?_, ?_⟩
          · rw [ih1, List.filterMap_cons, hte]
          · rw [ih2, List.countP_cons]
            simp [hb]
            omega
          · rw [ih3]
            unfold errLines
            rw [List.filterMap_cons]
            simp [hb, hn]
          · rw [ih4, List.filterMap_cons, hte]

theorem insertEntry_map_fst (acc : List (PyStr × PyStr)) (kn : PyStr × PyStr) :
    (insertEntry acc kn).map Prod.fst =
      if (acc.any fun e => e.1 = kn.1) then acc.map Prod.fst
      else acc.map Prod.fst ++ [kn.1] := by
  by_cases hc : (acc.any fun e => e.1 = kn.1) = true
  · simp [insertEntry, hc]
  · simp only [Bool.not_eq_true] at hc
    simp [insertEntry, hc]

theorem key_mem_map_fst_iff_any (acc : List (PyStr × PyStr)) (k : PyStr) :
    k ∈ acc.map Prod.fst ↔ (acc.any fun e => e.1 = k) = true := by
  rw [List.any_eq_true, List.mem_map]
  constructor
  · intro ⟨e, he, hek⟩
    exact ⟨e, he, by simp [hek]⟩
  · intro ⟨e, he, hek⟩
    exact ⟨e, he, by simpa using hek⟩

theorem insertNewKeys_keys (ps : List (PyStr × PyStr)) :
    ∀ init : List (PyStr × PyStr), (init.map Prod.fst).Nodup →
      ((insertNewKeys init ps).map Prod.fst).Nodup ∧
      ∀ k, k ∈ (insertNewKeys init ps).map Prod.fst ↔
        k ∈ init.map Prod.fst ∨ k ∈ ps.map Prod.fst := by
  induction ps with
  | nil => intro init h; exact ⟨h, fun k => by simp [insertNewKeys]⟩
  | cons p rest ih =>
    intro init h
    have hstep := insertEntry_map_fst init p
    have hrec : insertNewKeys init (p :: rest) = insertNewKeys (insertEntry init p) rest := rfl
    by_cases hc : (init.any fun e => e.1 = p.1) = true
    · rw [if_pos hc] at hstep
      have hnd : ((insertEntry init p).map Prod.fst).Nodup := hstep ▸ h
      obtain ⟨ih1, ih2⟩ := ih (insertEntry init p) hnd
      rw [hrec]
      refine ⟨ih1, fun k => ?_⟩
      rw [ih2 k, hstep, List.map_cons, List.mem_cons]
      have hp1 : p.1 ∈ init.map Prod.fst := (key_mem_map_fst_iff_any init p.1).mpr hc
      constructor
      · rintro (hh | hh)
        · exact Or.inl hh
        · exact Or.inr (Or.inr hh)
      · rintro (hh | hh | hh)
        · exact Or.inl hh
        · exact Or.inl (hh ▸ hp1)
        · exact Or.inr hh
    · rw [if_neg hc] at hstep
      have hp1 : p.1 ∉ init.map Prod.fst := by
        rw [key_mem_map_fst_iff_any]
        exact hc
      have hnd : ((insertEntry init p).map Prod.fst).Nodup := by
        rw [hstep, List.nodup_append]
        exact ⟨h, List.nodup_singleton _, by simpa using hp1⟩
      obtain ⟨ih1, ih2⟩ := ih (insertEntry init p) hnd
      rw [hrec]
      refine ⟨ih1, fun k => ?_⟩
      rw [ih2 k, hstep, List.map_cons, List.mem_cons]
      constructor
      · rintro (hh | hh)
        · rcases List.mem_append.mp hh with hh2 | hh2
          · exact Or.inl hh2
          · exact Or.inr (Or.inl (by simpa using hh2))
        · exact Or.inr (Or.inr hh)
      · rintro (hh | hh | hh)
        · exact Or.inl (List.mem_append.mpr (Or.inl hh))
        · exact Or.inl (List.mem_append.mpr (Or.inr (by simp [hh])))
        · exact Or.inr hh

theorem insertNewKeys_mono (ps : List (PyStr × PyStr)) :
    ∀ init x, x ∈ init → x ∈ insertNewKeys init ps := by
  induction ps with
  | nil => intro init x hx; exact hx
  | cons p rest ih =>
    intro init x hx
    have hrec : insertNewKeys init (p :: rest) = insertNewKeys (insertEntry init p) rest := rfl
    rw [hrec]
    apply ih
    unfold insertEntry
    split
    · exact hx
    · exact List.mem_append.mpr (Or.inl hx)

theorem insertNewKeys_find_first (ps : List (PyStr × PyStr)) :
    ∀ (init : List (PyStr × PyStr)) (k : PyStr) (e : PyStr × PyStr),
      (ps.find? fun p => p.1 = k) = some e → k ∉ init.map Prod.fst →
      e ∈ insertNewKeys init ps := by
  induction ps with
  | nil =>
    intro init k e hf
    simp at hf
  | cons p rest ih =>
    intro init k e hf hk
    have hrec : insertNewKeys init (p :: rest) = insertNewKeys (insertEntry init p) rest := rfl
    rw [hrec]
    by_cases hpk : p.1 = k
    · have hfe : e = p := by
        rw [List.find?_cons_of_pos _ (by simp [hpk])] at hf
        exact (Option.some.inj hf).symm
      have hins : insertEntry init p = init ++ [p] := by
        unfold insertEntry
        have : ¬(init.any fun e2 => e2.1 = p.1) = true := by
          rw [← key_mem_map_fst_iff_any]
          rw [hpk]
          exact hk
        simp [this]
      apply insertNewKeys_mono
      rw [hins, hfe]
      simp
    · rw [List.find?_cons_of_neg _ (by simp [hpk])] at hf
      apply ih (insertEntry init p) k e hf
      rw [insertEntry_map_fst]
      split
      · exact hk
      · rw [List.mem_append]
        rintro (hh | hh)
        · exact hk hh
        · have hkp : k = p.1 := by simpa using hh
          exact hpk hkp.symm

theorem insertNewKeys_fst_dedupFirst (ps : List (PyStr × PyStr)) :
    ∀ init : List (PyStr × PyStr),
      (insertNewKeys init ps).map Prod.fst
        = init.map Prod.fst
          ++ dedupFirst ((ps.map Prod.fst).filter fun k => ¬ k ∈ init.map Prod.fst) := by
  induction ps with
  | nil => intro init; simp [insertNewKeys, dedupFirst]
  | cons p rest ih =>
    intro init
    have hrec : insertNewKeys init (p :: rest) = insertNewKeys (insertEntry init p) rest := rfl
    rw [hrec, ih (insertEntry init p), insertEntry_map_fst]
    by_cases hc : (init.any fun e => e.1 = p.1) = true
    · rw [if_pos hc]
      have hp1 : p.1 ∈ init.map Prod.fst := (key_mem_map_fst_iff_any init p.1).mpr hc
      have hskip : (((p :: rest).map Prod.fst).filter fun k => ¬ k ∈ init.map Prod.fst)
          = ((rest.map Prod.fst).filter fun k => ¬ k ∈ init.map Prod.fst) := by
        rw [List.map_cons, List.filter_cons]
        simp [hp1]
      rw [hskip]
    · rw [if_neg hc]
      have hp1 : p.1 ∉ init.map Prod.fst := by
        rw [key_mem_map_fst_iff_any]; exact hc
      have hkeep : (((p :: rest).map Prod.fst).filter fun k => ¬ k ∈ init.map Prod.fst)
          = p.1 :: ((rest.map Prod.fst).filter fun k => ¬ k ∈ init.map Prod.fst) := by
        rw [List.map_cons, List.filter_cons]
        simp [hp1]
      rw [hkeep]
      have hdf : dedupFirst (p.1 :: ((rest.map Prod.fst).filter fun k => ¬ k ∈ init.map Prod.fst))
          = p.1 :: dedupFirst ((((rest.map Prod.fst).filter fun k => ¬ k ∈ init.map Prod.fst)).filter
              fun k2 => ¬(k2 = p.1)) := by
        rw [dedupFirst]
      rw [hdf, List.filter_filter, List.append_assoc]
      congr 1
      rw [List.singleton_append]
      congr 1
      congr 1
      apply List.filter_congr
      intro k hkmem
      have hb1 : (decide ¬k = p.1 && decide (k ∉ List.map Prod.fst init))
          = decide (¬k = p.1 ∧ k ∉ List.map Prod.fst init) := (Bool.decide_and _ _).symm
      rw [hb1, decide_eq_decide]
      rw [List.mem_append, List.mem_singleton]
      constructor
      · intro hh
        push_neg at hh
        exact ⟨hh.2, hh.1⟩
      · intro hh
        push_neg
        exact ⟨hh.2, hh.1⟩

/-- A nonblank line that normalizes successfully but to an empty
(falsy) key or URL: the loop ignores it without recording anything
but the total count. -/
def silentP (l : PyStr) : Bool :=
  if pyStrip l = [] then false
  else
    match normalize_url (pyStrip l) with
    | some kn => kn.1 = [] ∨ kn.2 = []
    | none => false

theorem countP_nonblank_partition (lines : List PyStr) :
    lines.countP (fun l => ¬(pyStrip l = []))
      = (lines.filterMap truthyEntry).length + (errLines lines).length
        + lines.countP silentP := by
  induction lines with
  | nil => simp [errLines]
  | cons l ls ih =>
    rw [List.countP_cons, List.countP_cons, ih]
    by_cases hb : pyStrip l = []
    · have hte : List.filterMap truthyEntry (l :: ls) = List.filterMap truthyEntry ls := by
        rw [List.filterMap_cons]
        have : truthyEntry l = none := by simp [truthyEntry, hb]
        rw [this]
      have herr : errLines (l :: ls) = errLines ls := by
        unfold errLines
        rw [List.filterMap_cons]
        simp [hb]
      have h1 : (decide ¬(pyStrip l = [])) = false := by simp [hb]
      have h2 : silentP l = false := by simp [silentP, hb]
      rw [hte, herr, h1, h2]
      simp
    · have h1 : (decide ¬(pyStrip l = [])) = true := by simp [hb]
      cases hn : normalize_url (pyStrip l) with
      | none =>
        have hte : List.filterMap truthyEntry (l :: ls) = List.filterMap truthyEntry ls := by
          rw [List.filterMap_cons]
          have : truthyEntry l = none := by simp [truthyEntry, hb, hn]
          rw [this]
        have herr : errLines (l :: ls) = pyStrip l :: errLines ls := by
          unfold errLines
          rw [List.filterMap_cons]
          simp [hb, hn]
        have h2 : silentP l = false := by simp [silentP, hb, hn]
        rw [hte, herr, h1, h2, List.length_cons]
        simp only [if_true]
        have hfi : (if (false = true) then 1 else 0) = 0 := by simp
        rw [hfi]
        omega
      | some kn =>
        by_cases ht : kn.1 ≠ [] ∧ kn.2 ≠ []
        · have hte : List.filterMap truthyEntry (l :: ls)
              = kn :: List.filterMap truthyEntry ls := by
            rw [List.filterMap_cons]
            have : truthyEntry l = some kn := by simp [truthyEntry, hb, hn, ht]
            rw [this]
          have herr : errLines (l :: ls) = errLines ls := by
            unfold errLines
            rw [List.filterMap_cons]
            simp [hb, hn]
          have h2 : silentP l = false := by
            simp only [silentP, hb, if_false, hn]
            rcases ht with ⟨ht1, ht2⟩
            simp [ht1, ht2]
          rw [hte, herr, h1, h2, List.length_cons]
          simp only [if_true]
          have hfi : (if (false = true) then 1 else 0) = 0 := by simp
          rw [hfi]
          omega
        · have hte : List.filterMap truthyEntry (l :: ls) = List.filterMap truthyEntry ls := by
            rw [List.filterMap_cons]
            have : truthyEntry l = none := by simp [truthyEntry, hb, hn, ht]
            rw [this]
          have herr : errLines (l :: ls) = errLines ls := by
            unfold errLines
            rw [List.filterMap_cons]
            simp [hb, hn]
          have h2 : silentP l = true := by
            simp only [silentP, hb, if_false, hn]
            rw [not_and_or] at ht
            rcases ht with ht | ht <;> simp at ht <;> simp [ht]
          rw [hte, herr, h1, h2]
          simp only [if_true]
          omega

/-! ## Claim C4: error handling of unusable lines -/

/-- The claim as stated: every nonblank line is accounted for as a
unique entry, a duplicate or a diagnosed error (no silent drops), and
a line whose normalization raises is recorded in the diagnostics. -/
def C4Statement : Prop :=
  ∀ lines : List PyStr,
    ((deduplicate_urls lines).entries.length + (deduplicate_urls lines).duplicates
        + (deduplicate_urls lines).errors.length = (deduplicate_urls lines).total) ∧
    ∀ l, l ∈ lines → pyStrip l ≠ [] → normalize_url (pyStrip l) = none →
      pyStrip l ∈ (deduplicate_urls lines).errors

/-- Counterexample to C4 as stated: the line abc normalizes without
raising, but its deduplication key is the empty string, so the
truthiness test of the loop drops it silently: it is counted in the
total but appears in no table, no duplicate count and no diagnostic. -/
theorem C4_counterexample : ¬ C4Statement := by
  intro h
  have := (h ["abc".data]).1
  revert this
  decide

/-- C4 amended: every nonblank line counts toward the total; a line
whose normalization raises is diagnosed (its stripped text is recorded),
excluded from the table and from the duplicate count; however lines
normalizing to an empty key or URL are dropped with no diagnostic, so
the total exceeds unique plus duplicates plus errors by exactly the
number of such silently dropped lines. -/
theorem C4_amended (lines : List PyStr) :
    (deduplicate_urls lines).total = lines.countP (fun l => ¬(pyStrip l = [])) ∧
    (deduplicate_urls lines).entries.length + (deduplicate_urls lines).duplicates
        + (deduplicate_urls lines).errors.length + lines.countP silentP
      = (deduplicate_urls lines).total ∧
    ∀ l, l ∈ lines → pyStrip l ≠ [] → normalize_url (pyStrip l) = none →
      pyStrip l ∈ (deduplicate_urls lines).errors := by
  obtain ⟨m1, m2, m3, m4⟩ := dedup_master lines ⟨[], 0, 0, []⟩
  have hdd : deduplicate_urls lines = lines.foldl dedupStep ⟨[], 0, 0, []⟩ := rfl
  rw [hdd]
  refine ⟨by simpa using m2, ?_, ?_⟩
  · have herrlen : (lines.foldl dedupStep ⟨[], 0, 0, []⟩).errors.length
        = (errLines lines).length := by rw [m3]; simp
    have m2x : (lines.foldl dedupStep ⟨[], 0, 0, []⟩).total
        = lines.countP (fun l => ¬(pyStrip l = [])) := by simpa using m2
    have m4x : (lines.foldl dedupStep ⟨[], 0, 0, []⟩).entries.length
          + (lines.foldl dedupStep ⟨[], 0, 0, []⟩).duplicates
        = (lines.filterMap truthyEntry).length := by simpa using m4
    rw [herrlen, m2x, countP_nonblank_partition]
    omega
  · intro l hl hsb hnone
    rw [m3]
    simp only [List.nil_append]
    unfold errLines
    rw [List.mem_filterMap]
    refine ⟨l, hl, ?_⟩
    simp [hsb, hnone]

/-- Witness for C4 amended: the line with a bracket mismatch raises in
the parser and its diagnostic is recorded. -/
theorem C4_amended_witness :
    pyStrip "http://[::1".data ∈ (deduplicate_urls ["http://[::1".data]).errors :=
  (C4_amended ["http://[::1".data]).2.2 "http://[::1".data (by decide) (by decide)
    (by decide)

/-! ## Claim C1: the deduplication invariant -/

/-- The sorted parameter-name list of a query: the canonical
representative of its parameter-name set used by the deduplication
key. -/
def paramNames (query : PyStr) : List PyStr :=
  (sortPairs (parse_qs query)).map Prod.fst

/-- The normalized query rebuilt by normalize_url: every sorted name
with the single sentinel value. -/
def normalizedQuery (query : PyStr) : PyStr :=
  urlencode_doseq ((sortPairs (parse_qs query)).map fun kv => (kv.1, [FUZZ]))

theorem normalize_url_ok {u : PyStr} {r : UrlParseResult}
    (h : urlparseE u = Except.ok r) :
    normalize_url u = some
      (urlunparse (pyLower r.scheme) (pyLower r.netloc) [] [] (normalizedQuery r.query) [],
       urlunparse r.scheme r.netloc r.path [] (normalizedQuery r.query) []) := by
  unfold normalize_url normalizedQuery
  rw [h]

theorem normalizedQuery_eq_of_names {q1 q2 : PyStr}
    (h : paramNames q1 = paramNames q2) :
    normalizedQuery q1 = normalizedQuery q2 := by
  unfold normalizedQuery
  have e1 : (sortPairs (parse_qs q1)).map (fun kv => (kv.1, [FUZZ]))
      = (paramNames q1).map fun nm => (nm, [FUZZ]) := by
    unfold paramNames
    rw [List.map_map]
    rfl
  have e2 : (sortPairs (parse_qs q2)).map (fun kv => (kv.1, [FUZZ]))
      = (paramNames q2).map fun nm => (nm, [FUZZ]) := by
    unfold paramNames
    rw [List.map_map]
    rfl
  rw [e1, e2, h]

theorem pyLower_eq_nil {s : PyStr} : pyLower s = [] ↔ s = [] := by
  unfold pyLower
  simp

/-- An empty result of urlunsplit forces empty scheme, netloc and
query. -/
theorem urlunsplit_eq_nil {scheme netloc path query fragment : PyStr}
    (h : urlunsplit scheme netloc path query fragment = []) :
    scheme = [] ∧ netloc = [] ∧ query = [] := by
  simp only [urlunsplit] at h
  by_cases hf : fragment ≠ []
  · rw [if_pos hf] at h
    exact absurd h (by simp)
  · rw [if_neg hf] at h
    by_cases hq : query ≠ []
    · rw [if_pos hq] at h
      exact absurd h (by simp)
    · rw [if_neg hq] at h
      push_neg at hq
      by_cases hs : scheme ≠ []
      · rw [if_pos hs] at h
        exact absurd h (by simp)
      · rw [if_neg hs] at h
        push_neg at hs
        by_cases hcond : (netloc ≠ [] ∨ (scheme ≠ [] ∧ scheme ∈ uses_netloc ∧
            ¬ (['/', '/'] : PyStr).isPrefixOf path))
        · rw [if_pos hcond] at h
          exact absurd h (by simp)
        · rw [if_neg hcond] at h
          push_neg at hcond
          exact ⟨hs, hcond.1, hq⟩

/-- A nonempty deduplication key forces a nonempty normalized output
URL. -/
theorem norm_url_ne_nil_of_key {r : UrlParseResult}
    (hk : urlunparse (pyLower r.scheme) (pyLower r.netloc) [] []
        (normalizedQuery r.query) [] ≠ []) :
    urlunparse r.scheme r.netloc r.path [] (normalizedQuery r.query) [] ≠ [] := by
  intro hcon
  apply hk
  have h1 : urlunsplit r.scheme r.netloc r.path (normalizedQuery r.query) [] = [] := by
    simpa [urlunparse] using hcon
  obtain ⟨hs, hn, hq⟩ := urlunsplit_eq_nil h1
  have hls : pyLower r.scheme = [] := pyLower_eq_nil.mpr hs
  have hln : pyLower r.netloc = [] := pyLower_eq_nil.mpr hn
  simp only [urlunparse, hls, hln, hq]
  rfl

/-- The claim as stated: two parsed input URLs with identical scheme,
host and parameter-name set share one deduplication key; exactly one
entry for that key appears in the table, it is the first-encountered
entry for the key, and the table keys stand in first-seen order. -/
def C1Statement : Prop :=
  ∀ (lines : List PyStr) (a b : PyStr) (pa pb : UrlParseResult) (k na : PyStr),
    a ∈ lines → b ∈ lines → pyStrip a ≠ [] → pyStrip b ≠ [] →
    urlparseE (pyStrip a) = Except.ok pa → urlparseE (pyStrip b) = Except.ok pb →
    pa.scheme = pb.scheme → pa.netloc = pb.netloc →
    paramNames pa.query = paramNames pb.query →
    normalize_url (pyStrip a) = some (k, na) →
    ((deduplicate_urls lines).entries.countP (fun e => e.1 = k) = 1 ∧
     (∀ e, ((lines.filterMap truthyEntry).find? fun p => p.1 = k) = some e →
        e ∈ (deduplicate_urls lines).entries) ∧
     (deduplicate_urls lines).entries.map Prod.fst
        = dedupFirst ((lines.filterMap truthyEntry).map Prod.fst))

/-- Counterexample to C1 as stated: the lines a and b both parse with
empty scheme, empty host and empty parameter set, so they share the
deduplication key, which is the empty string; the truthiness test of
the loop drops both lines, so no entry at all appears for that key. -/
theorem C1_counterexample : ¬ C1Statement := by
  intro h
  have := h [['a'], ['b']] ['a'] ['b']
    ⟨[], [], ['a'], [], [], []⟩ ⟨[], [], ['b'], [], [], []⟩ [] ['a']
    (by decide) (by decide) (by decide) (by decide) (by decide) (by decide)
    (by decide) (by decide) (by decide) (by decide)
  have h1 := this.1
  revert h1
  decide

/-- C1 amended: the dedup invariant as stated, for pairs whose shared
deduplication key is nonempty (truthy); URLs with an empty key are
silently dropped instead. -/
theorem C1_amended (lines : List PyStr) (a b : PyStr) (pa pb : UrlParseResult)
    (k na : PyStr)
    (hal : a ∈ lines) (hbl : b ∈ lines)
    (hsa : pyStrip a ≠ []) (hsb : pyStrip b ≠ [])
    (hpa : urlparseE (pyStrip a) = Except.ok pa)
    (hpb : urlparseE (pyStrip b) = Except.ok pb)
    (hsch : pa.scheme = pb.scheme) (hnet : pa.netloc = pb.netloc)
    (hnames : paramNames pa.query = paramNames pb.query)
    (hka : normalize_url (pyStrip a) = some (k, na))
    (hk : k ≠ []) :
    (∃ nb, normalize_url (pyStrip b) = some (k, nb)) ∧
    (deduplicate_urls lines).entries.countP (fun e => e.1 = k) = 1 ∧
    (∀ e, ((lines.filterMap truthyEntry).find? fun p => p.1 = k) = some e →
      e ∈ (deduplicate_urls lines).entries) ∧
    (deduplicate_urls lines).entries.map Prod.fst
      = dedupFirst ((lines.filterMap truthyEntry).map Prod.fst) := by
  -- identify the key and normalized URL of a
  have hna := normalize_url_ok hpa
  rw [hka] at hna
  have hk_eq : k = urlunparse (pyLower pa.scheme) (pyLower pa.netloc) [] []
      (normalizedQuery pa.query) [] := congrArg Prod.fst (Option.some.inj hna)
  have hna_eq : na = urlunparse pa.scheme pa.netloc pa.path [] (normalizedQuery pa.query) [] :=
    congrArg Prod.snd (Option.some.inj hna)
  -- the key of b coincides
  have hquery : normalizedQuery pa.query = normalizedQuery pb.query :=
    normalizedQuery_eq_of_names hnames
  have hkb : urlunparse (pyLower pb.scheme) (pyLower pb.netloc) [] []
      (normalizedQuery pb.query) [] = k := by
    rw [hk_eq, hsch, hnet, hquery]
  have hb_some : ∃ nb, normalize_url (pyStrip b) = some (k, nb) := by
    refine ⟨urlunparse pb.scheme pb.netloc pb.path [] (normalizedQuery pb.query) [], ?_⟩
    rw [normalize_url_ok hpb, hkb]
  -- the entry of a is truthy
  have hna_ne : na ≠ [] := by
    rw [hna_eq]
    apply norm_url_ne_nil_of_key
    rw [← hk_eq]
    exact hk
  have hta : truthyEntry a = some (k, na) := by
    unfold truthyEntry
    rw [if_neg (by simpa using hsa), hka]
    show (if k ≠ [] ∧ na ≠ [] then some (k, na) else none) = some (k, na)
    rw [if_pos ⟨hk, hna_ne⟩]
  -- key membership in the truthy pair list
  have hmemp : (k, na) ∈ lines.filterMap truthyEntry :=
    List.mem_filterMap.mpr ⟨a, hal, hta⟩
  have hmemk : k ∈ (lines.filterMap truthyEntry).map Prod.fst :=
    List.mem_map_of_mem Prod.fst hmemp
  -- the table is the first-key insertion of the truthy pairs
  obtain ⟨m1, _, _, _⟩ := dedup_master lines ⟨[], 0, 0, []⟩
  have hdd : deduplicate_urls lines = lines.foldl dedupStep ⟨[], 0, 0, []⟩ := rfl
  have hentries : (deduplicate_urls lines).entries
      = insertNewKeys [] (lines.filterMap truthyEntry) := by
    rw [hdd, m1]
  obtain ⟨hnd, hmem⟩ := insertNewKeys_keys (lines.filterMap truthyEntry) [] (by simp)
  refine ⟨hb_some, ?_, ?_, ?_⟩
  · rw [hentries]
    apply countP_key_eq_one _ _ hnd
    rw [hmem k]
    exact Or.inr hmemk
  · intro e hfind
    rw [hentries]
    exact insertNewKeys_find_first _ [] k e hfind (by simp)
  · rw [hentries, insertNewKeys_fst_dedupFirst]
    have : (((lines.filterMap truthyEntry).map Prod.fst).filter
        fun k2 => ¬ k2 ∈ (([] : List (PyStr × PyStr)).map Prod.fst)) =
        ((lines.filterMap truthyEntry).map Prod.fst) := by
      apply List.filter_eq_self.mpr
      intro x hx
      simp
    rw [this]
    simp

/-- Witness for C1 amended on the spec example pair. -/
theorem C1_amended_witness :
    (∃ nb, normalize_url (pyStrip "http://a.com/y?a=9&z=9".data)
      = some ("http://a.com?a=FUZZ&z=FUZZ".data, nb)) ∧
    (deduplicate_urls ["http://a.com/x?z=1&a=2".data, "http://a.com/y?a=9&z=9".data]).entries.countP
      (fun e => e.1 = "http://a.com?a=FUZZ&z=FUZZ".data) = 1 ∧
    (∀ e, ((["http://a.com/x?z=1&a=2".data, "http://a.com/y?a=9&z=9".data].filterMap
        truthyEntry).find? fun p => p.1 = "http://a.com?a=FUZZ&z=FUZZ".data) = some e →
      e ∈ (deduplicate_urls ["http://a.com/x?z=1&a=2".data, "http://a.com/y?a=9&z=9".data]).entries) ∧
    (deduplicate_urls ["http://a.com/x?z=1&a=2".data, "http://a.com/y?a=9&z=9".data]).entries.map
        Prod.fst
      = dedupFirst ((["http://a.com/x?z=1&a=2".data,
          "http://a.com/y?a=9&z=9".data].filterMap truthyEntry).map Prod.fst) :=
  C1_amended ["http://a.com/x?z=1&a=2".data, "http://a.com/y?a=9&z=9".data]
    "http://a.com/x?z=1&a=2".data "http://a.com/y?a=9&z=9".data
    ⟨"http".data, "a.com".data, "/x".data, [], "z=1&a=2".data, []⟩
    ⟨"http".data, "a.com".data, "/y".data, [], "a=9&z=9".data, []⟩
    "http://a.com?a=FUZZ&z=FUZZ".data "http://a.com/x?a=FUZZ&z=FUZZ".data
    (by decide) (by decide) (by decide) (by decide) (by decide) (by decide)
    (by decide) (by decide) (by decide) (by decide) (by decide)

/-! ## Order lemmas for the sort used by normalize_url -/

theorem asciiLower_idem (c : Char) : asciiLower (asciiLower c) = asciiLower c := by
  unfold asciiLower
  by_cases h : 'A' ≤ c ∧ c ≤ 'Z'
  · rw [if_pos h]
    have h1 : (65 : Nat) ≤ c.toNat := h.1
    have h2 : c.toNat ≤ 90 := h.2
    have hval : (c.toNat + 32).isValidChar := Or.inl (by omega)
    have hv : (Char.ofNat (c.toNat + 32)).toNat = c.toNat + 32 := by
      rw [Char.ofNat, dif_pos hval]
      rfl
    rw [if_neg]
    intro ⟨ha, hz⟩
    have h1n : (65 : Nat) ≤ (Char.ofNat (c.toNat + 32)).toNat := ha
    rw [hv] at h1n
    have h2n : (Char.ofNat (c.toNat + 32)).toNat ≤ 90 := hz
    rw [hv] at h2n
    omega
  · rw [if_neg h, if_neg h]

theorem pyLower_idem (s : PyStr) : pyLower (pyLower s) = pyLower s := by
  unfold pyLower
  rw [List.map_map]
  apply List.map_congr_left
  intro c _
  exact asciiLower_idem c

theorem pyStrLt_trichotomy (s t : PyStr) :
    pyStrLt s t = true ∨ s = t ∨ pyStrLt t s = true := by
  induction s generalizing t with
  | nil =>
    cases t with
    | nil => exact Or.inr (Or.inl rfl)
    | cons y ys => exact Or.inl (by simp [pyStrLt])
  | cons x xs ih =>
    cases t with
    | nil => exact Or.inr (Or.inr (by simp [pyStrLt]))
    | cons y ys =>
      rcases Nat.lt_trichotomy x.toNat y.toNat with h | h | h
      · exact Or.inl (by simp [pyStrLt, h])
      · have hxy : x = y := Char.eq_of_val_eq (UInt32.toNat.inj h)
        subst hxy
        rcases ih ys with h2 | h2 | h2
        · exact Or.inl (by simp [pyStrLt, h2])
        · exact Or.inr (Or.inl (by rw [h2]))
        · exact Or.inr (Or.inr (by simp [pyStrLt, h2]))
      · exact Or.inr (Or.inr (by simp [pyStrLt, h]))

theorem pyStrLt_asymm {s t : PyStr} (h : pyStrLt s t = true) : pyStrLt t s = false := by
  induction s generalizing t with
  | nil =>
    cases t with
    | nil => simp [pyStrLt] at h
    | cons y ys => simp [pyStrLt]
  | cons x xs ih =>
    cases t with
    | nil => simp [pyStrLt] at h
    | cons y ys =>
      unfold pyStrLt at h ⊢
      rcases Nat.lt_trichotomy x.toNat y.toNat with h1 | h1 | h1
      · rw [if_neg (by omega), if_pos (by omega)]
      · rw [if_neg (by omega), if_neg (by omega)] at h
        rw [if_neg (by omega), if_neg (by omega)]
        exact ih h
      · rw [if_neg (by omega), if_pos (by omega)] at h
        exact absurd h (by simp)

theorem pyStrLt_irrefl (s : PyStr) : pyStrLt s s = false := by
  induction s with
  | nil => rfl
  | cons x xs ih => simp [pyStrLt, ih]

theorem pyStrLt_ne {s t : PyStr} (h : pyStrLt s t = true) : s ≠ t := by
  intro hcon
  subst hcon
  rw [pyStrLt_irrefl] at h
  exact Bool.noConfusion h

theorem pyStrLt_trans {s t u : PyStr} (h1 : pyStrLt s t = true)
    (h2 : pyStrLt t u = true) : pyStrLt s u = true := by
  induction s generalizing t u with
  | nil =>
    cases u with
    | nil =>
      cases t with
      | nil => exact h1
      | cons y ys => simp [pyStrLt] at h2
    | cons z zs => simp [pyStrLt]
  | cons x xs ih =>
    cases t with
    | nil => simp [pyStrLt] at h1
    | cons y ys =>
      cases u with
      | nil => simp [pyStrLt] at h2
      | cons z zs =>
        unfold pyStrLt at h1 h2 ⊢
        rcases Nat.lt_trichotomy x.toNat y.toNat with hxy | hxy | hxy
        · rcases Nat.lt_trichotomy y.toNat z.toNat with hyz | hyz | hyz
          · rw [if_pos (by omega)]
          · rw [if_pos (by omega)]
          · rw [if_neg (by omega), if_pos (by omega)] at h2
            exact absurd h2 (by simp)
        · rw [if_neg (by omega), if_neg (by omega)] at h1
          rcases Nat.lt_trichotomy y.toNat z.toNat with hyz | hyz | hyz
          · rw [if_pos (by omega)]
          · rw [if_neg (by omega), if_neg (by omega)] at h2
            rw [if_neg (by omega), if_neg (by omega)]
            exact ih h1 h2
          · rw [if_neg (by omega), if_pos (by omega)] at h2
            exact absurd h2 (by simp)
        · rw [if_neg (by omega), if_pos (by omega)] at h1
          exact absurd h1 (by simp)

/-- Strict key order on item pairs. -/
def keyLt (a b : PyStr × List PyStr) : Prop := pyStrLt a.1 b.1 = true

theorem pairLt_false_of_keyLt {a b : PyStr × List PyStr} (h : keyLt a b) :
    pairLt b a = false := by
  unfold keyLt at h
  have h1 := pyStrLt_asymm h
  have h2 : b.1 ≠ a.1 := fun hc => pyStrLt_ne h hc.symm
  unfold pairLt
  simp [h1, h2]

theorem keyLt_of_not_pairLt {x y : PyStr × List PyStr}
    (h : ¬ pairLt y x = true) (hne : x.1 ≠ y.1) : keyLt x y := by
  unfold keyLt
  rcases pyStrLt_trichotomy x.1 y.1 with h1 | h1 | h1
  · exact h1
  · exact absurd h1 hne
  · refine absurd ?_ h
    unfold pairLt
    simp [h1]

theorem keyLt_of_pairLt {x y : PyStr × List PyStr}
    (h : pairLt y x = true) (hne : x.1 ≠ y.1) : keyLt y x := by
  unfold pairLt at h
  rw [decide_eq_true_eq] at h
  unfold keyLt
  rcases h with h1 | ⟨he, _⟩
  · exact h1
  · exact absurd he.symm hne

theorem insertPair_keySorted {x : PyStr × List PyStr} {l : List (PyStr × List PyStr)}
    (hx : ∀ z ∈ l, x.1 ≠ z.1)
    (hl : l.Pairwise keyLt) : (insertPair x l).Pairwise keyLt := by
  induction l with
  | nil => simp [insertPair]
  | cons y ys ih =>
    rw [List.pairwise_cons] at hl
    unfold insertPair
    by_cases hc : pairLt y x = true
    · rw [if_pos hc]
      rw [List.pairwise_cons]
      constructor
      · intro z hz
        rw [List.Perm.mem_iff (insertPair_perm x ys)] at hz
        rcases List.mem_cons.mp hz with hz2 | hz2
        · subst hz2
          exact keyLt_of_pairLt hc (hx y (List.mem_cons_self y ys))
        · exact hl.1 z hz2
      · exact ih (fun z hz => hx z (List.mem_cons_of_mem y hz)) hl.2
    · rw [if_neg hc]
      rw [List.pairwise_cons]
      constructor
      · intro z hz
        rcases List.mem_cons.mp hz with hz2 | hz2
        · subst hz2
          exact keyLt_of_not_pairLt hc (hx z (List.mem_cons_self z ys))
        · exact pyStrLt_trans
            (keyLt_of_not_pairLt hc (hx y (List.mem_cons_self y ys)))
            (hl.1 z hz2)
      · exact List.Pairwise.cons hl.1 hl.2

theorem sortPairs_keySorted {l : List (PyStr × List PyStr)}
    (hnd : (l.map Prod.fst).Nodup) : (sortPairs l).Pairwise keyLt := by
  induction l with
  | nil => simp [sortPairs]
  | cons x xs ih =>
    rw [List.map_cons, List.nodup_cons] at hnd
    have hrec : sortPairs (x :: xs) = insertPair x (sortPairs xs) := rfl
    rw [hrec]
    apply insertPair_keySorted
    · intro z hz
      intro hcon
      apply hnd.1
      rw [List.Perm.mem_iff (sortPairs_perm xs)] at hz
      rw [hcon]
      exact List.mem_map_of_mem Prod.fst hz
    · exact ih hnd.2

theorem sortPairs_of_keySorted {l : List (PyStr × List PyStr)}
    (hl : l.Pairwise keyLt) : sortPairs l = l := by
  induction l with
  | nil => rfl
  | cons x xs ih =>
    rw [List.pairwise_cons] at hl
    have hrec : sortPairs (x :: xs) = insertPair x (sortPairs xs) := rfl
    rw [hrec, ih hl.2]
    cases xs with
    | nil => rfl
    | cons y ys =>
      unfold insertPair
      rw [if_neg]
      rw [pairLt_false_of_keyLt (hl.1 y (List.mem_cons_self y ys))]
      simp

/-! ## Splitting lemmas -/

theorem splitFirst_of_not_mem {c : Char} {s : PyStr} (h : c ∉ s) :
    splitFirst c s = (s, none) := by
  induction s with
  | nil => rfl
  | cons a rest ih =>
    unfold splitFirst
    rw [if_neg (fun hc => h (by simp [hc]))]
    rw [ih (fun hc => h (List.mem_cons_of_mem a hc))]

theorem splitFirst_append {c : Char} {a b : PyStr} (h : c ∉ a) :
    splitFirst c (a ++ c :: b) = (a, some b) := by
  induction a with
  | nil => simp [splitFirst]
  | cons x rest ih =>
    unfold splitFirst
    rw [List.cons_append]
    simp only
    rw [if_neg (fun hc => h (by simp [hc]))]
    rw [ih (fun hc => h (List.mem_cons_of_mem x hc))]

theorem splitFirst_some_recon {c : Char} {s b r : PyStr}
    (h : splitFirst c s = (b, some r)) : s = b ++ c :: r ∧ c ∉ b := by
  induction s generalizing b with
  | nil => simp [splitFirst] at h
  | cons a rest ih =>
    unfold splitFirst at h
    by_cases hc : a = c
    · rw [if_pos hc] at h
      obtain ⟨hb, hr⟩ := Prod.mk.injEq .. ▸ h
      injection h with hb2 hr2
      injection hr2 with hr3
      subst hc
      exact ⟨by rw [← hb2, ← hr3]; rfl, by rw [← hb2]; simp⟩
    · rw [if_neg hc] at h
      injection h with hb2 hr2
      cases hsp : splitFirst c rest with
      | mk b2 r2 =>
        rw [hsp] at hb2 hr2
        simp only at hb2 hr2
        cases r2 with
        | none => rw [hr2] at hsp; simp_all
        | some rr =>
          have hrr : rr = r := by injection hr2
          obtain ⟨hrec, hnm⟩ := ih (hsp.trans (by rw [hrr]))
          constructor
          · rw [← hb2, List.cons_append, ← hrec]
          · rw [← hb2]
            intro hmem
            rcases List.mem_cons.mp hmem with hh | hh
            · exact hc hh.symm
            · exact hnm hh

theorem splitFirst_none_recon {c : Char} {s b : PyStr}
    (h : splitFirst c s = (b, none)) : b = s ∧ c ∉ s := by
  induction s generalizing b with
  | nil =>
    unfold splitFirst at h
    injection h with h1 _
    exact ⟨h1.symm, by simp⟩
  | cons a rest ih =>
    unfold splitFirst at h
    by_cases hc : a = c
    · rw [if_pos hc] at h
      injection h with _ h2
      exact absurd h2 (by simp)
    · rw [if_neg hc] at h
      injection h with h1 h2
      cases hsp : splitFirst c rest with
      | mk b2 r2 =>
        rw [hsp] at h1 h2
        simp only at h1 h2
        cases r2 with
        | some rr => simp_all
        | none =>
          obtain ⟨hb, hnm⟩ := ih hsp
          constructor
          · rw [← h1, hb]
          · intro hmem
            rcases List.mem_cons.mp hmem with hh | hh
            · exact hc hh.symm
            · exact hnm hh

theorem pySplit_cons (c x : Char) (rest : PyStr) :
    pySplit c (x :: rest)
      = if x = c then [] :: pySplit c rest
        else match pySplit c rest with
          | r :: rs => (x :: r) :: rs
          | [] => [[x]] := rfl

theorem pySplit_of_not_mem {c : Char} {s : PyStr} (h : c ∉ s) :
    pySplit c s = [s] := by
  induction s with
  | nil => rfl
  | cons a rest ih =>
    rw [pySplit_cons]
    rw [if_neg (fun hc => h (by simp [hc]))]
    rw [ih (fun hc => h (List.mem_cons_of_mem a hc))]

theorem pySplit_append {c : Char} {a t : PyStr} (h : c ∉ a) :
    pySplit c (a ++ c :: t) = a :: pySplit c t := by
  induction a with
  | nil => simp [pySplit]
  | cons x rest ih =>
    rw [List.cons_append, pySplit_cons]
    rw [if_neg (fun hc => h (by simp [hc]))]
    rw [ih (fun hc => h (List.mem_cons_of_mem x hc))]

theorem pySplit_intercalate (pieces : List PyStr) (hne : pieces ≠ [])
    (hfree : ∀ p ∈ pieces, ('&' : Char) ∉ p) :
    pySplit '&' (List.intercalate ['&'] pieces) = pieces := by
  induction pieces with
  | nil => exact absurd rfl hne
  | cons p rest ih =>
    cases rest with
    | nil =>
      have : List.intercalate ['&'] [p] = p := by simp [List.intercalate]
      rw [this]
      exact pySplit_of_not_mem (hfree p (by simp))
    | cons q rest2 =>
      have hstep : List.intercalate ['&'] (p :: q :: rest2)
          = p ++ '&' :: List.intercalate ['&'] (q :: rest2) := by
        simp [List.intercalate, List.intersperse]
      rw [hstep, pySplit_append (hfree p (by simp))]
      rw [ih (by simp) (fun x hx => hfree x (List.mem_cons_of_mem p hx))]

theorem takeWhile_append_all {p : Char → Bool} {a b : PyStr}
    (h : ∀ c ∈ a, p c = true) :
    (a ++ b).takeWhile p = a ++ b.takeWhile p ∧ (a ++ b).dropWhile p = b.dropWhile p := by
  induction a with
  | nil => simp
  | cons x rest ih =>
    have hx : p x = true := h x (List.mem_cons_self x rest)
    have := ih (fun c hc => h c (List.mem_cons_of_mem x hc))
    constructor
    · rw [List.cons_append, List.takeWhile_cons, if_pos hx, this.1, List.cons_append]
    · rw [List.cons_append, List.dropWhile_cons, if_pos hx, this.2]

/-! ## UTF-8 round trip -/

theorem char_valid_ranges (c : Char) :
    c.toNat < 0xD800 ∨ (0xE000 ≤ c.toNat ∧ c.toNat < 0x110000) := by
  have h := c.valid
  unfold UInt32.isValidChar at h
  unfold Nat.isValidChar at h
  exact h

theorem utf8Dec_one {b : Nat} (h : b < 0x80) (l : List Nat) :
    utf8DecodeReplace (b :: l) = Char.ofNat b :: utf8DecodeReplace l := by
  conv_lhs => rw [utf8DecodeReplace.eq_def]
  show (if b < 0x80 then _ else _) = _
  rw [if_pos h]

theorem utf8Dec_two {b b1 : Nat} (hb : 0xC2 ≤ b ∧ b < 0xE0)
    (hb1 : 0x80 ≤ b1 ∧ b1 < 0xC0) (l : List Nat) :
    utf8DecodeReplace (b :: b1 :: l)
      = Char.ofNat ((b - 0xC0) * 64 + (b1 - 0x80)) :: utf8DecodeReplace l := by
  conv_lhs => rw [utf8DecodeReplace.eq_def]
  show (if b < 0x80 then _ else _) = _
  rw [if_neg (by omega), if_neg (by omega), if_pos hb.2]
  show (if 0x80 ≤ b1 ∧ b1 < 0xC0 then _ else _) = _
  rw [if_pos hb1]

theorem utf8Dec_three {b b1 b2 : Nat} (hb : 0xE0 ≤ b ∧ b < 0xF0)
    (hb1 : (if b = 0xE0 then 0xA0 ≤ b1 ∧ b1 < 0xC0
            else if b = 0xED then 0x80 ≤ b1 ∧ b1 < 0xA0
            else 0x80 ≤ b1 ∧ b1 < 0xC0))
    (hb2 : 0x80 ≤ b2 ∧ b2 < 0xC0) (l : List Nat) :
    utf8DecodeReplace (b :: b1 :: b2 :: l)
      = Char.ofNat ((b - 0xE0) * 4096 + (b1 - 0x80) * 64 + (b2 - 0x80))
          :: utf8DecodeReplace l := by
  conv_lhs => rw [utf8DecodeReplace.eq_def]
  show (if b < 0x80 then _ else _) = _
  rw [if_neg (by omega), if_neg (by omega), if_neg (by omega), if_pos hb.2]
  show (if (if b = 0xE0 then 0xA0 ≤ b1 ∧ b1 < 0xC0
            else if b = 0xED then 0x80 ≤ b1 ∧ b1 < 0xA0
            else 0x80 ≤ b1 ∧ b1 < 0xC0) then _ else _) = _
  rw [if_pos hb1]
  show (if 0x80 ≤ b2 ∧ b2 < 0xC0 then _ else _) = _
  rw [if_pos hb2]

theorem utf8Dec_four {b b1 b2 b3 : Nat} (hb : 0xF0 ≤ b ∧ b < 0xF5)
    (hb1 : (if b = 0xF0 then 0x90 ≤ b1 ∧ b1 < 0xC0
            else if b = 0xF4 then 0x80 ≤ b1 ∧ b1 < 0x90
            else 0x80 ≤ b1 ∧ b1 < 0xC0))
    (hb2 : 0x80 ≤ b2 ∧ b2 < 0xC0) (hb3 : 0x80 ≤ b3 ∧ b3 < 0xC0) (l : List Nat) :
    utf8DecodeReplace (b :: b1 :: b2 :: b3 :: l)
      = Char.ofNat ((b - 0xF0) * 0x40000 + (b1 - 0x80) * 4096
          + (b2 - 0x80) * 64 + (b3 - 0x80)) :: utf8DecodeReplace l := by
  conv_lhs => rw [utf8DecodeReplace.eq_def]
  show (if b < 0x80 then _ else _) = _
  rw [if_neg (by omega), if_neg (by omega), if_neg (by omega), if_neg (by omega),
    if_pos hb.2]
  show (if (if b = 0xF0 then 0x90 ≤ b1 ∧ b1 < 0xC0
            else if b = 0xF4 then 0x80 ≤ b1 ∧ b1 < 0x90
            else 0x80 ≤ b1 ∧ b1 < 0xC0) then _ else _) = _
  rw [if_pos hb1]
  show (if 0x80 ≤ b2 ∧ b2 < 0xC0 then _ else _) = _
  rw [if_pos hb2]
  show (if 0x80 ≤ b3 ∧ b3 < 0xC0 then _ else _) = _
  rw [if_pos hb3]


theorem utf8_decode_encode_char (c : Char) (l : List Nat) :
    utf8DecodeReplace (utf8EncodeCharM c ++ l) = c :: utf8DecodeReplace l := by
  have hv := char_valid_ranges c
  unfold utf8EncodeCharM
  by_cases h1 : c.toNat < 0x80
  · rw [if_pos h1, List.cons_append, List.nil_append]
    rw [utf8Dec_one h1, Char.ofNat_toNat]
  · by_cases h2 : c.toNat < 0x800
    · rw [if_neg h1, if_pos h2]
      rw [List.cons_append, List.cons_append, List.nil_append]
      rw [utf8Dec_two (by omega) (by omega)]
      have harg : (0xC0 + c.toNat / 64 - 0xC0) * 64 + (0x80 + c.toNat % 64 - 0x80)
          = c.toNat := by omega
      rw [harg, Char.ofNat_toNat]
    · by_cases h3 : c.toNat < 0x10000
      · rw [if_neg h1, if_neg h2, if_pos h3]
        rw [List.cons_append, List.cons_append, List.cons_append, List.nil_append]
        rw [utf8Dec_three (by omega) ?hb1 (by omega)]
        case hb1 =>
          by_cases he0 : 0xE0 + c.toNat / 4096 = 0xE0
          · rw [if_pos he0]
            constructor
            · have : c.toNat / 4096 = 0 := by omega
              have : c.toNat / 64 ≥ 32 := by omega
              have : c.toNat / 64 < 64 := by omega
              omega
            · omega
          · rw [if_neg he0]
            by_cases hed : 0xE0 + c.toNat / 4096 = 0xED
            · rw [if_pos hed]
              have hd : c.toNat / 4096 = 13 := by omega
              have hlow : c.toNat < 0xD800 := by
                rcases hv with h | h
                · exact h
                · omega
              constructor
              · omega
              · have : c.toNat / 64 < 0x360 := by omega
                have h64 : c.toNat / 64 ≥ 0x340 := by omega
                omega
            · rw [if_neg hed]
              omega
        have harg : (0xE0 + c.toNat / 4096 - 0xE0) * 4096
            + (0x80 + c.toNat / 64 % 64 - 0x80) * 64 + (0x80 + c.toNat % 64 - 0x80)
            = c.toNat := by omega
        rw [harg, Char.ofNat_toNat]
      · rw [if_neg h1, if_neg h2, if_neg h3]
        rw [List.cons_append, List.cons_append, List.cons_append, List.cons_append,
          List.nil_append]
        have hup : c.toNat < 0x110000 := by
          rcases hv with h | h
          · omega
          · exact h.2
        rw [utf8Dec_four (by omega) ?hb1 (by omega) (by omega)]
        case hb1 =>
          by_cases hf0 : 0xF0 + c.toNat / 0x40000 = 0xF0
          · rw [if_pos hf0]
            have : c.toNat / 0x40000 = 0 := by omega
            have : c.toNat / 4096 ≥ 16 := by omega
            have : c.toNat / 4096 < 64 := by omega
            omega
          · rw [if_neg hf0]
            by_cases hf4 : 0xF0 + c.toNat / 0x40000 = 0xF4
            · rw [if_pos hf4]
              have : c.toNat / 0x40000 = 4 := by omega
              have : c.toNat / 4096 ≥ 256 := by omega
              have : c.toNat / 4096 < 272 := by omega
              omega
            · rw [if_neg hf4]
              omega
        have harg : (0xF0 + c.toNat / 0x40000 - 0xF0) * 0x40000
            + (0x80 + c.toNat / 4096 % 64 - 0x80) * 4096
            + (0x80 + c.toNat / 64 % 64 - 0x80) * 64 + (0x80 + c.toNat % 64 - 0x80)
            = c.toNat := by omega
        rw [harg, Char.ofNat_toNat]

theorem utf8_decode_encode (s : PyStr) :
    utf8DecodeReplace (utf8EncodeM s) = s := by
  induction s with
  | nil => rfl
  | cons c rest ih =>
    unfold utf8EncodeM
    rw [List.flatMap_cons]
    rw [utf8_decode_encode_char]
    unfold utf8EncodeM at ih
    rw [ih]

/-! ## Quote and unquote round trip -/

theorem toNat_ofNat_lt {n : Nat} (h : n < 0xD800) : (Char.ofNat n).toNat = n := by
  rw [Char.ofNat, dif_pos (Or.inl h)]
  rfl

theorem utf8EncodeCharM_bytes (c : Char) : ∀ b ∈ utf8EncodeCharM c, b < 256 := by
  have hv := char_valid_ranges c
  have hup : c.toNat < 0x110000 := by rcases hv with h | h; omega; exact h.2
  unfold utf8EncodeCharM
  intro b hb
  by_cases h1 : c.toNat < 0x80
  · rw [if_pos h1] at hb
    rcases List.mem_singleton.mp hb with rfl
    omega
  · by_cases h2 : c.toNat < 0x800
    · rw [if_neg h1, if_pos h2] at hb
      rcases List.mem_cons.mp hb with rfl | hb2
      · omega
      · rcases List.mem_singleton.mp hb2 with rfl
        omega
    · by_cases h3 : c.toNat < 0x10000
      · rw [if_neg h1, if_neg h2, if_pos h3] at hb
        rcases List.mem_cons.mp hb with rfl | hb2
        · omega
        · rcases List.mem_cons.mp hb2 with rfl | hb3
          · omega
          · rcases List.mem_singleton.mp hb3 with rfl
            omega
      · rw [if_neg h1, if_neg h2, if_neg h3] at hb
        rcases List.mem_cons.mp hb with rfl | hb2
        · omega
        · rcases List.mem_cons.mp hb2 with rfl | hb3
          · omega
          · rcases List.mem_cons.mp hb3 with rfl | hb4
            · omega
            · rcases List.mem_singleton.mp hb4 with rfl
              omega

theorem utf8EncodeM_bytes (s : PyStr) : ∀ b ∈ utf8EncodeM s, b < 256 := by
  intro b hb
  unfold utf8EncodeM at hb
  rw [List.mem_flatMap] at hb
  obtain ⟨c, _, hbc⟩ := hb
  exact utf8EncodeCharM_bytes c b hbc

theorem isSafeByte_lt {b : Nat} (h : isSafeByte b = true) : b < 128 ∧ b ≠ 37 ∧ b ≠ 32 := by
  unfold isSafeByte at h
  rw [decide_eq_true_eq] at h
  omega

theorem hexUpper_facts {x : Nat} (h : x < 16) :
    isHexDigit (hexUpper x) = true ∧ hexVal (hexUpper x) = x ∧
    (hexUpper x).toNat < 128 ∧ (hexUpper x) ≠ '+' ∧ (hexUpper x) ≠ '%' := by
  interval_cases x <;> exact ⟨by decide, by decide, by decide, by decide, by decide⟩

/-- The byte quoting of quote_plus followed by the plus-to-space
replacement of parse_qsl. -/
def quoteByteSp (b : Nat) : PyStr :=
  if b = 32 then [' ']
  else if isSafeByte b then [Char.ofNat b]
  else ['%', hexUpper (b / 16), hexUpper (b % 16)]

theorem quoteByte_map_plus {b : Nat} (hb : b < 256) :
    (quoteByte b).map (fun c => if c = '+' then ' ' else c) = quoteByteSp b := by
  unfold quoteByte quoteByteSp
  by_cases h32 : b = 32
  · subst h32
    rfl
  · by_cases hs : isSafeByte b = true
    · obtain ⟨hlt, hne37, hne32⟩ := isSafeByte_lt hs
      have htn : (Char.ofNat b).toNat = b := toNat_ofNat_lt (by omega)
      have hnp : Char.ofNat b ≠ '+' := by
        intro hcon
        have h2 := congrArg Char.toNat hcon
        rw [htn] at h2
        subst h2
        exact absurd hs (by decide)
      simp [h32, hs, hnp]
    · have hhi := hexUpper_facts (by omega : b / 16 < 16)
      have hlo := hexUpper_facts (by omega : b % 16 < 16)
      simp [h32, hs, hhi.2.2.2.1, hlo.2.2.2.1]

theorem unquoteBytes_pct (c1 c2 : Char) (rest : PyStr) :
    unquoteBytes ('%' :: c1 :: c2 :: rest)
      = if isHexDigit c1 ∧ isHexDigit c2 then
          (hexVal c1 * 16 + hexVal c2) :: unquoteBytes rest
        else 37 :: unquoteBytes (c1 :: c2 :: rest) := rfl

theorem unquoteBytes_cons_ne {c : Char} (hc : c ≠ '%') (rest : PyStr) :
    unquoteBytes (c :: rest) = c.toNat :: unquoteBytes rest := by
  rcases rest with _ | ⟨c1, rest1⟩
  · simp [unquoteBytes, hc]
  · rcases rest1 with _ | ⟨c2, rest2⟩
    · simp [unquoteBytes, hc]
    · simp [unquoteBytes, hc]

theorem unquoteBytes_quoted (bytes : List Nat) (hb : ∀ b ∈ bytes, b < 256) :
    unquoteBytes (bytes.flatMap quoteByteSp) = bytes := by
  induction bytes with
  | nil => rfl
  | cons b rest ih =>
    have hblt : b < 256 := hb b (List.mem_cons_self b rest)
    have hrest : ∀ x ∈ rest, x < 256 := fun x hx => hb x (List.mem_cons_of_mem b hx)
    rw [List.flatMap_cons]
    by_cases h32 : b = 32
    · have hq : quoteByteSp b = [' '] := by
        unfold quoteByteSp
        rw [if_pos h32]
      rw [hq, List.singleton_append]
      rw [unquoteBytes_cons_ne (by decide), ih hrest]
      rw [h32]
      rfl
    · by_cases hs : isSafeByte b = true
      · have hq : quoteByteSp b = [Char.ofNat b] := by
          unfold quoteByteSp
          rw [if_neg h32, if_pos hs]
        obtain ⟨hlt, hne37, _⟩ := isSafeByte_lt hs
        have htn : (Char.ofNat b).toNat = b := toNat_ofNat_lt (by omega)
        have hnp : Char.ofNat b ≠ '%' := by
          intro hcon
          have h2 := congrArg Char.toNat hcon
          rw [htn] at h2
          exact hne37 (by simpa using h2)
        rw [hq, List.singleton_append, unquoteBytes_cons_ne hnp, ih hrest, htn]
      · have hq : quoteByteSp b = ['%', hexUpper (b / 16), hexUpper (b % 16)] := by
          unfold quoteByteSp
          rw [if_neg h32, if_neg hs]
        have hhi := hexUpper_facts (by omega : b / 16 < 16)
        have hlo := hexUpper_facts (by omega : b % 16 < 16)
        rw [hq, List.cons_append, List.cons_append, List.cons_append, List.nil_append]
        rw [unquoteBytes_pct, if_pos ⟨hhi.1, hlo.1⟩, hhi.2.1, hlo.2.1, ih hrest]
        congr 1
        omega

theorem asciiRuns_all_ascii {s : PyStr} (hne : s ≠ [])
    (h : ∀ c ∈ s, c.toNat < 128) : asciiRuns s = [(true, s)] := by
  induction s with
  | nil => exact absurd rfl hne
  | cons c rest ih =>
    have hc : c.toNat < 128 := h c (List.mem_cons_self c rest)
    unfold asciiRuns
    rcases hr : rest with _ | ⟨c2, rest2⟩
    · rw [show asciiRuns ([] : PyStr) = [] from rfl]
      simp [hc]
    · rw [← hr]
      have hrest : asciiRuns rest = [(true, rest)] := by
        apply ih
        · rw [hr]; simp
        · exact fun x hx => h x (List.mem_cons_of_mem c hx)
      rw [hrest]
      simp [hc]

theorem unquoteBytes_pctfree {s : PyStr} (h : ('%' : Char) ∉ s) :
    unquoteBytes s = s.map Char.toNat := by
  induction s with
  | nil => rfl
  | cons c rest ih =>
    rw [unquoteBytes_cons_ne (fun hc => h (by simp [hc])), List.map_cons,
      ih (fun hc => h (List.mem_cons_of_mem c hc))]

theorem utf8Dec_ascii_codes {s : PyStr} (h : ∀ c ∈ s, c.toNat < 128) :
    utf8DecodeReplace (s.map Char.toNat) = s := by
  induction s with
  | nil => rfl
  | cons c rest ih =>
    rw [List.map_cons, utf8Dec_one (h c (List.mem_cons_self c rest)),
      Char.ofNat_toNat, ih (fun x hx => h x (List.mem_cons_of_mem c hx))]

theorem unquote_ascii {s : PyStr} (h : ∀ c ∈ s, c.toNat < 128) :
    unquote s = utf8DecodeReplace (unquoteBytes s) := by
  unfold unquote
  by_cases hp : ('%' : Char) ∈ s
  · rw [if_pos hp]
    have hne : s ≠ [] := by
      intro hcon
      rw [hcon] at hp
      simp at hp
    rw [asciiRuns_all_ascii hne h]
    simp
  · rw [if_neg hp]
    rw [unquoteBytes_pctfree hp, utf8Dec_ascii_codes h]

theorem quoteByteSp_ascii {b : Nat} (hb : b < 256) :
    ∀ c ∈ quoteByteSp b, c.toNat < 128 := by
  intro c hc
  unfold quoteByteSp at hc
  by_cases h32 : b = 32
  · rw [if_pos h32] at hc
    rcases List.mem_singleton.mp hc with rfl
    decide
  · rw [if_neg h32] at hc
    by_cases hs : isSafeByte b = true
    · rw [if_pos hs] at hc
      rcases List.mem_singleton.mp hc with rfl
      obtain ⟨hlt, _, _⟩ := isSafeByte_lt hs
      rw [toNat_ofNat_lt (by omega)]
      omega
    · rw [if_neg hs] at hc
      have hhi := hexUpper_facts (by omega : b / 16 < 16)
      have hlo := hexUpper_facts (by omega : b % 16 < 16)
      rcases List.mem_cons.mp hc with rfl | hc2
      · decide
      · rcases List.mem_cons.mp hc2 with rfl | hc3
        · exact hhi.2.2.1
        · rcases List.mem_singleton.mp hc3 with rfl
          exact hlo.2.2.1

/-- The round trip at the heart of normalize_url idempotence: a
quote_plus encoded string decodes back to itself through the
plus-to-space and unquote steps of parse_qsl. -/
theorem unquotePlus_quote_plus (s : PyStr) : unquotePlus (quote_plus s) = s := by
  unfold unquotePlus quote_plus
  have hmap : ((utf8EncodeM s).flatMap quoteByte).map
      (fun c => if c = '+' then ' ' else c)
      = (utf8EncodeM s).flatMap quoteByteSp := by
    rw [List.map_flatMap (fun c => if c = '+' then ' ' else c) quoteByte (utf8EncodeM s)]
    apply List.flatMap_congr
    intro b hbmem
    exact quoteByte_map_plus (utf8EncodeM_bytes s b hbmem)
  rw [hmap]
  have hascii : ∀ c ∈ (utf8EncodeM s).flatMap quoteByteSp, c.toNat < 128 := by
    intro c hc
    rw [List.mem_flatMap] at hc
    obtain ⟨b, hbm, hcb⟩ := hc
    exact quoteByteSp_ascii (utf8EncodeM_bytes s b hbm) c hcb
  rw [unquote_ascii hascii, unquoteBytes_quoted _ (utf8EncodeM_bytes s),
    utf8_decode_encode]

/-! ## Stability of the normalized query under reparsing -/

theorem char_ne_of_toNat_ne {c d : Char} (h : c.toNat ≠ d.toNat) : c ≠ d :=
  fun hc => h (congrArg Char.toNat hc)

theorem hexUpper_toNat_range {x : Nat} (h : x < 16) :
    (48 ≤ (hexUpper x).toNat ∧ (hexUpper x).toNat ≤ 57) ∨
    (65 ≤ (hexUpper x).toNat ∧ (hexUpper x).toNat ≤ 70) := by
  interval_cases x <;> first
  | exact Or.inl (by decide)
  | exact Or.inr (by decide)

theorem isSafeByte_ranges {b : Nat} (h : isSafeByte b = true) :
    (48 ≤ b ∧ b ≤ 57) ∨ (65 ≤ b ∧ b ≤ 90) ∨ (97 ≤ b ∧ b ≤ 122) ∨
    b = 95 ∨ b = 46 ∨ b = 45 ∨ b = 126 := by
  unfold isSafeByte at h
  rw [decide_eq_true_eq] at h
  exact h

theorem quote_plus_charset (s : PyStr) :
    ∀ c ∈ quote_plus s, 32 < c.toNat ∧ c.toNat < 128 ∧
      c ≠ '&' ∧ c ≠ '=' ∧ c ≠ '#' ∧ c ≠ '?' ∧ c ≠ ':' := by
  intro c hc
  unfold quote_plus at hc
  rw [List.mem_flatMap] at hc
  obtain ⟨b, hbm, hcb⟩ := hc
  have hblt : b < 256 := utf8EncodeM_bytes s b hbm
  unfold quoteByte at hcb
  by_cases h32 : b = 32
  · rw [if_pos h32] at hcb
    rcases List.mem_singleton.mp hcb with rfl
    refine ⟨by decide, by decide, by decide, by decide, by decide, by decide, by decide⟩
  · rw [if_neg h32] at hcb
    by_cases hs : isSafeByte b = true
    · rw [if_pos hs] at hcb
      rcases List.mem_singleton.mp hcb with rfl
      have hr := isSafeByte_ranges hs
      have htn : (Char.ofNat b).toNat = b := toNat_ofNat_lt (by omega)
      refine ⟨by omega, by omega, ?_, ?_, ?_, ?_, ?_⟩ <;>
        exact char_ne_of_toNat_ne
          (by rw [htn]; intro hcon; rw [hcon] at hr; revert hr; decide)
    · rw [if_neg hs] at hcb
      rcases List.mem_cons.mp hcb with rfl | hcb2
      · refine ⟨by decide, by decide, by decide, by decide, by decide, by decide, by decide⟩
      · have key : ∀ y : Nat, y < 16 → (∀ c2 ∈ [hexUpper y], 32 < c2.toNat ∧ c2.toNat < 128 ∧
            c2 ≠ '&' ∧ c2 ≠ '=' ∧ c2 ≠ '#' ∧ c2 ≠ '?' ∧ c2 ≠ ':') := by
          intro y hy c2 hc2
          rcases List.mem_singleton.mp hc2 with rfl
          have hrr := hexUpper_toNat_range hy
          refine ⟨by omega, by omega, ?_, ?_, ?_, ?_, ?_⟩ <;>
            exact char_ne_of_toNat_ne (by intro hcon; revert hrr; rw [hcon]; decide)
        rcases List.mem_cons.mp hcb2 with rfl | hcb3
        · exact key (b / 16) (by omega) _ (by simp)
        · rcases List.mem_singleton.mp hcb3 with rfl
          exact key (b % 16) (by omega) _ (by simp)

theorem intercalateAmp_single (p : PyStr) : List.intercalate ['&'] [p] = p := by
  simp [List.intercalate]

theorem intercalateAmp_cons_cons (p q : PyStr) (rest : List PyStr) :
    List.intercalate ['&'] (p :: q :: rest)
      = p ++ '&' :: List.intercalate ['&'] (q :: rest) := by
  simp [List.intercalate, List.intersperse]

theorem filterMap_eq_map_of_forall {α β : Type} {l : List α} {h : α → Option β}
    {f : α → β} (hf : ∀ x ∈ l, h x = some (f x)) : l.filterMap h = l.map f := by
  induction l with
  | nil => rfl
  | cons a rest ih =>
    rw [List.filterMap_cons, hf a (List.mem_cons_self a rest), List.map_cons,
      ih (fun x hx => hf x (List.mem_cons_of_mem a hx))]

theorem quote_plus_FUZZ : quote_plus FUZZ = FUZZ := by decide

/-- One encoded piece of the normalized query. -/
def fuzzPiece (nm : PyStr) : PyStr := quote_plus nm ++ '=' :: quote_plus FUZZ

theorem urlencode_fuzz (names : List PyStr) :
    urlencode_doseq (names.map fun nm => (nm, [FUZZ]))
      = List.intercalate ['&'] (names.map fuzzPiece) := by
  unfold urlencode_doseq
  congr 1
  rw [List.flatMap_map]
  induction names with
  | nil => rfl
  | cons a rest ih =>
    rw [List.flatMap_cons, List.map_cons, ih]
    rfl

theorem fuzzPiece_ne_nil (nm : PyStr) : fuzzPiece nm ≠ [] := by
  unfold fuzzPiece
  intro h
  exact List.cons_ne_nil _ _ (List.append_eq_nil.mp h).2

theorem amp_not_mem_fuzzPiece (nm : PyStr) : ('&' : Char) ∉ fuzzPiece nm := by
  unfold fuzzPiece
  intro h
  rcases List.mem_append.mp h with h1 | h2
  · exact (quote_plus_charset nm '&' h1).2.2.1 rfl
  · rcases List.mem_cons.mp h2 with h3 | h4
    · exact absurd h3 (by decide)
    · rw [quote_plus_FUZZ] at h4
      exact absurd h4 (by decide)

theorem eq_not_mem_quote_plus (nm : PyStr) : ('=' : Char) ∉ quote_plus nm :=
  fun h => (quote_plus_charset nm '=' h).2.2.2.1 rfl

theorem parse_qsl_fuzz (names : List PyStr) :
    parse_qsl (List.intercalate ['&'] (names.map fuzzPiece))
      = names.map fun nm => (nm, FUZZ) := by
  cases names with
  | nil => rfl
  | cons a rest =>
    unfold parse_qsl
    rw [pySplit_intercalate _ (by simp) ?hfree]
    case hfree =>
      intro p hp
      rw [List.mem_map] at hp
      obtain ⟨nm, _, rfl⟩ := hp
      exact amp_not_mem_fuzzPiece nm
    rw [List.filterMap_map]
    apply filterMap_eq_map_of_forall
    intro nm _
    show (if fuzzPiece nm = [] then none
      else match splitFirst '=' (fuzzPiece nm) with
        | (n, some v) => some (unquotePlus n, unquotePlus v)
        | (n, none) => some (unquotePlus n, unquotePlus []))
      = some (nm, FUZZ)
    rw [if_neg (fuzzPiece_ne_nil nm),
      show fuzzPiece nm = quote_plus nm ++ '=' :: quote_plus FUZZ from rfl,
      splitFirst_append (eq_not_mem_quote_plus nm)]
    show some (unquotePlus (quote_plus nm), unquotePlus (quote_plus FUZZ)) = some (nm, FUZZ)
    rw [unquotePlus_quote_plus nm, unquotePlus_quote_plus FUZZ]

theorem foldl_addQs_distinct (v : PyStr) (names : List PyStr) :
    ∀ acc : List (PyStr × List PyStr), names.Nodup →
      (∀ nm ∈ names, ∀ e ∈ acc, e.1 ≠ nm) →
      (names.map fun nm => (nm, v)).foldl addQsPair acc
        = acc ++ names.map fun nm => (nm, [v]) := by
  induction names with
  | nil => intro acc _ _; simp
  | cons a rest ih =>
    intro acc hnd hfr
    rw [List.map_cons, List.foldl_cons]
    have hc : ¬ ((acc.any fun e => e.1 = (a, v).1) = true) := by
      rw [List.any_eq_true]
      rintro ⟨e, he, hep⟩
      exact hfr a (List.mem_cons_self a rest) e he (by simpa using hep)
    have hstep : addQsPair acc (a, v) = acc ++ [(a, [v])] := by
      unfold addQsPair
      rw [if_neg hc]
    rw [hstep, ih (acc ++ [(a, [v])]) (List.nodup_cons.mp hnd).2 ?hfr2, List.map_cons]
    · simp
    case hfr2 =>
      intro nm hnm e he
      rcases List.mem_append.mp he with h1 | h2
      · exact hfr nm (List.mem_cons_of_mem a hnm) e h1
      · rcases List.mem_singleton.mp h2 with rfl
        intro hcon
        have hcon2 : a = nm := by simpa using hcon
        exact (List.nodup_cons.mp hnd).1 (hcon2 ▸ hnm)

theorem parse_qs_fuzz (names : List PyStr) (hnd : names.Nodup) :
    parse_qs (List.intercalate ['&'] (names.map fuzzPiece))
      = names.map fun nm => (nm, [FUZZ]) := by
  unfold parse_qs
  rw [parse_qsl_fuzz]
  have := foldl_addQs_distinct FUZZ names [] hnd (by intro nm _ e he; cases he)
  simpa using this

theorem paramNames_nodup (q : PyStr) : (paramNames q).Nodup := by
  unfold paramNames
  exact (((sortPairs_perm (parse_qs q)).map Prod.fst).nodup_iff).mpr (parse_qs_keys_nodup q)

theorem paramNames_sorted (q : PyStr) :
    (paramNames q).Pairwise fun a b => pyStrLt a b = true := by
  unfold paramNames
  have hs : (sortPairs (parse_qs q)).Pairwise keyLt :=
    sortPairs_keySorted (parse_qs_keys_nodup q)
  exact hs.map Prod.fst (fun a b h => h)

theorem normalizedQuery_eq_pieces (q : PyStr) :
    normalizedQuery q = List.intercalate ['&'] ((paramNames q).map fuzzPiece) := by
  unfold normalizedQuery paramNames
  rw [← urlencode_fuzz]
  congr 1
  rw [List.map_map]
  exact List.map_congr_left fun kv _ => rfl

theorem parse_qs_normalizedQuery (q : PyStr) :
    parse_qs (normalizedQuery q) = (paramNames q).map fun nm => (nm, [FUZZ]) := by
  rw [normalizedQuery_eq_pieces, parse_qs_fuzz _ (paramNames_nodup q)]

theorem sortPairs_parse_qs_nq (q : PyStr) :
    sortPairs (parse_qs (normalizedQuery q))
      = (paramNames q).map fun nm => (nm, [FUZZ]) := by
  rw [parse_qs_normalizedQuery]
  apply sortPairs_of_keySorted
  exact (paramNames_sorted q).map (fun nm => (nm, [FUZZ])) (fun a b h => h)

theorem paramNames_normalizedQuery (q : PyStr) :
    paramNames (normalizedQuery q) = paramNames q := by
  show (sortPairs (parse_qs (normalizedQuery q))).map Prod.fst = paramNames q
  rw [sortPairs_parse_qs_nq, List.map_map]
  exact List.map_id _

theorem normalizedQuery_idem (q : PyStr) :
    normalizedQuery (normalizedQuery q) = normalizedQuery q := by
  rw [normalizedQuery_eq_pieces (normalizedQuery q), paramNames_normalizedQuery,
    ← normalizedQuery_eq_pieces]

/-! ## Character classes of schemes and re-splitting the rebuilt URL -/

theorem isAlpha_toNat {c : Char} (h : c.isAlpha = true) :
    (65 ≤ c.toNat ∧ c.toNat ≤ 90) ∨ (97 ≤ c.toNat ∧ c.toNat ≤ 122) := by
  unfold Char.isAlpha at h
  rw [Bool.or_eq_true] at h
  rcases h with h | h
  · unfold Char.isUpper at h
    rw [Bool.and_eq_true, decide_eq_true_eq, decide_eq_true_eq] at h
    exact Or.inl ⟨h.1, h.2⟩
  · unfold Char.isLower at h
    rw [Bool.and_eq_true, decide_eq_true_eq, decide_eq_true_eq] at h
    exact Or.inr ⟨h.1, h.2⟩

theorem isAlpha_of_toNat_upper {c : Char} (h1 : 65 ≤ c.toNat) (h2 : c.toNat ≤ 90) :
    c.isAlpha = true := by
  unfold Char.isAlpha Char.isUpper
  rw [Bool.or_eq_true]
  left
  rw [Bool.and_eq_true, decide_eq_true_eq, decide_eq_true_eq]
  exact ⟨h1, h2⟩

theorem isAlpha_of_toNat_lower {c : Char} (h1 : 97 ≤ c.toNat) (h2 : c.toNat ≤ 122) :
    c.isAlpha = true := by
  unfold Char.isAlpha Char.isLower
  rw [Bool.or_eq_true]
  right
  rw [Bool.and_eq_true, decide_eq_true_eq, decide_eq_true_eq]
  exact ⟨h1, h2⟩

theorem isDigit_toNat {c : Char} (h : c.isDigit = true) :
    48 ≤ c.toNat ∧ c.toNat ≤ 57 := by
  unfold Char.isDigit at h
  rw [Bool.and_eq_true, decide_eq_true_eq, decide_eq_true_eq] at h
  exact ⟨h.1, h.2⟩

theorem asciiLower_toNat (c : Char) :
    (asciiLower c).toNat = c.toNat ∨
    ((asciiLower c).toNat = c.toNat + 32 ∧ 65 ≤ c.toNat ∧ c.toNat ≤ 90) := by
  unfold asciiLower
  by_cases hU : 'A' ≤ c ∧ c ≤ 'Z'
  · right
    have h1 : (65 : Nat) ≤ c.toNat := hU.1
    have h2 : c.toNat ≤ 90 := hU.2
    rw [if_pos hU]
    exact ⟨toNat_ofNat_lt (by omega), h1, h2⟩
  · left
    rw [if_neg hU]

theorem asciiLower_eq_self_of_range {c : Char} (h : c.toNat < 65 ∨ 90 < c.toNat) :
    asciiLower c = c := by
  unfold asciiLower
  rw [if_neg]
  rintro ⟨hU1, hU2⟩
  have h1 : (65 : Nat) ≤ c.toNat := hU1
  have h2 : c.toNat ≤ 90 := hU2
  omega

theorem asciiLower_alpha {c : Char} (h : c.isAlpha = true) :
    (asciiLower c).isAlpha = true := by
  rcases isAlpha_toNat h with ⟨h1, h2⟩ | ⟨h1, h2⟩
  · rcases asciiLower_toNat c with he | ⟨he, _, _⟩
    · exact isAlpha_of_toNat_upper (he ▸ h1) (he ▸ h2)
    · exact isAlpha_of_toNat_lower (by omega) (by omega)
  · rcases asciiLower_toNat c with he | ⟨_, h3, h4⟩
    · exact isAlpha_of_toNat_lower (he ▸ h1) (he ▸ h2)
    · omega

theorem isSchemeChar_split {c : Char} (h : isSchemeChar c = true) :
    c.isAlpha = true ∨ c.isDigit = true ∨ c = '+' ∨ c = '-' ∨ c = '.' := by
  unfold isSchemeChar at h
  rw [decide_eq_true_eq] at h
  exact h

theorem isSchemeChar_toNat {c : Char} (h : isSchemeChar c = true) :
    (48 ≤ c.toNat ∧ c.toNat ≤ 57) ∨ (65 ≤ c.toNat ∧ c.toNat ≤ 90) ∨
    (97 ≤ c.toNat ∧ c.toNat ≤ 122) ∨ c.toNat = 43 ∨ c.toNat = 45 ∨ c.toNat = 46 := by
  rcases isSchemeChar_split h with h | h | h | h | h
  · rcases isAlpha_toNat h with h2 | h2
    · exact Or.inr (Or.inl h2)
    · exact Or.inr (Or.inr (Or.inl h2))
  · exact Or.inl (isDigit_toNat h)
  · subst h; exact Or.inr (Or.inr (Or.inr (Or.inl rfl)))
  · subst h; exact Or.inr (Or.inr (Or.inr (Or.inr (Or.inl rfl))))
  · subst h; exact Or.inr (Or.inr (Or.inr (Or.inr (Or.inr rfl))))

theorem asciiLower_schemeChar {c : Char} (h : isSchemeChar c = true) :
    isSchemeChar (asciiLower c) = true := by
  unfold isSchemeChar
  rw [decide_eq_true_eq]
  rcases isSchemeChar_split h with h | h | h | h | h
  · exact Or.inl (asciiLower_alpha h)
  · have := isDigit_toNat h
    rw [asciiLower_eq_self_of_range (by omega)]
    exact Or.inr (Or.inl h)
  · subst h
    rw [asciiLower_eq_self_of_range (by decide)]
    exact Or.inr (Or.inr (Or.inl rfl))
  · subst h
    rw [asciiLower_eq_self_of_range (by decide)]
    exact Or.inr (Or.inr (Or.inr (Or.inl rfl)))
  · subst h
    rw [asciiLower_eq_self_of_range (by decide)]
    exact Or.inr (Or.inr (Or.inr (Or.inr rfl)))

theorem isSchemeChar_clean {c : Char} (h : isSchemeChar c = true) :
    32 < c.toNat ∧ c.toNat < 128 ∧ c ≠ ':' := by
  have := isSchemeChar_toNat h
  refine ⟨by omega, by omega, char_ne_of_toNat_ne ?_⟩
  intro hc
  rw [show (':' : Char).toNat = 58 from rfl] at hc
  omega

theorem isAlpha_clean {c : Char} (h : c.isAlpha = true) :
    32 < c.toNat ∧ c.toNat < 128 ∧ c ≠ ':' := by
  have := isAlpha_toNat h
  refine ⟨by omega, by omega, char_ne_of_toNat_ne ?_⟩
  intro hc
  rw [show (':' : Char).toNat = 58 from rfl] at hc
  omega

theorem clean_of_toNat_gt {c : Char} (h : 32 < c.toNat) :
    ¬(c = '\t' ∨ c = '\r' ∨ c = '\n') := by
  rintro (rfl | rfl | rfl) <;> revert h <;> decide

theorem splitFirst_cons_ne {c x : Char} {t : PyStr} (h : ¬ x = c) :
    splitFirst c (x :: t) = (x :: (splitFirst c t).1, (splitFirst c t).2) := by
  conv_lhs => rw [splitFirst.eq_def]
  show (if x = c then (([] : PyStr), some t)
    else let r := splitFirst c t; (x :: r.1, r.2)) = _
  rw [if_neg h]

theorem splitFirst_cons_eq (c : Char) (t : PyStr) :
    splitFirst c (c :: t) = ([], some t) := by
  unfold splitFirst
  rw [if_pos rfl]

theorem splitFirst_fst_facts (c : Char) (s : PyStr) :
    c ∉ (splitFirst c s).1 ∧ ∀ x ∈ (splitFirst c s).1, x ∈ s := by
  rcases h : splitFirst c s with ⟨b, o⟩
  cases o with
  | none =>
    obtain ⟨hb, hcm⟩ := splitFirst_none_recon h
    subst hb
    exact ⟨hcm, fun x hx => hx⟩
  | some r =>
    obtain ⟨hs, hcm⟩ := splitFirst_some_recon h
    refine ⟨hcm, fun x hx => ?_⟩
    rw [hs]
    exact List.mem_append.mpr (Or.inl hx)

theorem fragQuerySplit_fields (scheme netloc rest : PyStr) :
    (fragQuerySplit scheme netloc rest).scheme = scheme ∧
    (fragQuerySplit scheme netloc rest).netloc = netloc ∧
    (fragQuerySplit scheme netloc rest).path
      = (splitFirst '?' (splitFirst '#' rest).1).1 := by
  exact ⟨rfl, rfl, rfl⟩

theorem fragQuerySplit_path_facts (scheme netloc rest : PyStr) :
    '#' ∉ (fragQuerySplit scheme netloc rest).path ∧
    '?' ∉ (fragQuerySplit scheme netloc rest).path ∧
    ∀ x ∈ (fragQuerySplit scheme netloc rest).path, x ∈ rest := by
  rw [(fragQuerySplit_fields scheme netloc rest).2.2]
  have h1 := splitFirst_fst_facts '#' rest
  have h2 := splitFirst_fst_facts '?' (splitFirst '#' rest).1
  refine ⟨fun hm => h1.1 (h2.2 '#' hm), h2.1,
    fun x hx => h1.2 x (h2.2 x hx)⟩

theorem intercalateAmp_nil : List.intercalate ['&'] ([] : List PyStr) = [] := by
  simp [List.intercalate]

theorem mem_intercalateAmp {pieces : List PyStr} {c : Char}
    (h : c ∈ List.intercalate ['&'] pieces) : c = '&' ∨ ∃ p ∈ pieces, c ∈ p := by
  induction pieces with
  | nil => rw [intercalateAmp_nil] at h; cases h
  | cons p rest ih =>
    cases rest with
    | nil =>
      rw [intercalateAmp_single] at h
      exact Or.inr ⟨p, List.mem_cons_self p [], h⟩
    | cons q rest2 =>
      rw [intercalateAmp_cons_cons] at h
      rcases List.mem_append.mp h with h1 | h2
      · exact Or.inr ⟨p, List.mem_cons_self p _, h1⟩
      · rcases List.mem_cons.mp h2 with rfl | h3
        · exact Or.inl rfl
        · rcases ih h3 with h4 | ⟨p2, hp2, hc2⟩
          · exact Or.inl h4
          · exact Or.inr ⟨p2, List.mem_cons_of_mem p hp2, hc2⟩

theorem normalizedQuery_charset (q : PyStr) :
    ∀ c ∈ normalizedQuery q, 32 < c.toNat ∧ c ≠ '#' ∧ c ≠ '?' := by
  rw [normalizedQuery_eq_pieces]
  intro c hc
  rcases mem_intercalateAmp hc with rfl | ⟨p, hp, hcp⟩
  · exact ⟨by decide, by decide, by decide⟩
  · rw [List.mem_map] at hp
    obtain ⟨nm, _, rfl⟩ := hp
    unfold fuzzPiece at hcp
    rcases List.mem_append.mp hcp with h1 | h2
    · have := quote_plus_charset nm c h1
      exact ⟨this.1, this.2.2.2.2.1, this.2.2.2.2.2.1⟩
    · rcases List.mem_cons.mp h2 with rfl | h3
      · exact ⟨by decide, by decide, by decide⟩
      · have := quote_plus_charset FUZZ c h3
        exact ⟨this.1, this.2.2.2.2.1, this.2.2.2.2.2.1⟩

theorem sanitizeUrl_no_ctl (u : PyStr) :
    ∀ c ∈ sanitizeUrl u, ¬(c = '\t' ∨ c = '\r' ∨ c = '\n') := by
  intro c hc
  unfold sanitizeUrl at hc
  have := List.of_mem_filter hc
  rw [decide_eq_true_eq] at this
  exact this

theorem sanitizeUrl_mem (u : PyStr) : ∀ c ∈ sanitizeUrl u, c ∈ u := by
  intro c hc
  unfold sanitizeUrl at hc
  have h1 := List.mem_of_mem_filter hc
  exact (List.dropWhile_sublist _).mem h1

theorem sanitizeUrl_cons {h : Char} {t : PyStr} (hh : 32 < h.toNat)
    (hclean : ∀ c ∈ h :: t, ¬(c = '\t' ∨ c = '\r' ∨ c = '\n')) :
    sanitizeUrl (h :: t) = h :: t := by
  unfold sanitizeUrl
  have hd : ¬ (decide (h.toNat ≤ 32) = true) := by
    rw [decide_eq_true_eq]
    omega
  rw [List.dropWhile_cons, if_neg hd, List.filter_eq_self.mpr]
  intro a ha
  exact decide_eq_true (hclean a ha)

theorem schemeSplit_eq (u : PyStr) :
    schemeSplit u = ([], u) ∨
    ∃ b0 btail after, splitFirst ':' u = (b0 :: btail, some after) ∧
      b0.isAlpha = true ∧ btail.all isSchemeChar = true ∧
      schemeSplit u = (pyLower (b0 :: btail), after) := by
  rcases hsp : splitFirst ':' u with ⟨before, o⟩
  cases o with
  | none =>
    left
    unfold schemeSplit
    rw [hsp]
  | some after =>
    cases before with
    | nil =>
      left
      unfold schemeSplit
      rw [hsp]
    | cons b0 btail =>
      by_cases hc : b0.isAlpha = true ∧ btail.all isSchemeChar = true
      · right
        refine ⟨b0, btail, after, rfl, hc.1, hc.2, ?_⟩
        unfold schemeSplit
        rw [hsp]
        show (if b0.isAlpha = true ∧ btail.all isSchemeChar = true
          then (pyLower (b0 :: btail), after) else ([], u)) = _
        rw [if_pos hc]
      · left
        unfold schemeSplit
        rw [hsp]
        show (if b0.isAlpha = true ∧ btail.all isSchemeChar = true
          then (pyLower (b0 :: btail), after) else ([], u)) = _
        rw [if_neg hc]

theorem schemeSplit_snd_mem (u : PyStr) : ∀ c ∈ (schemeSplit u).2, c ∈ u := by
  rcases schemeSplit_eq u with h | ⟨b0, btail, after, hsp, _, _, h⟩
  · rw [h]
    exact fun c hc => hc
  · rw [h]
    obtain ⟨hu, _⟩ := splitFirst_some_recon hsp
    intro c hc
    rw [hu]
    exact List.mem_append.mpr (Or.inr (List.mem_cons_of_mem ':' hc))

theorem schemeSplit_not_alpha {x : Char} {t : PyStr}
    (hx : ¬ x.isAlpha = true) (hcol : ¬ x = ':') :
    schemeSplit (x :: t) = ([], x :: t) := by
  unfold schemeSplit
  rw [splitFirst_cons_ne hcol]
  rcases h2 : (splitFirst ':' t).2 with _ | after
  · rfl
  · show (if x.isAlpha = true ∧ (splitFirst ':' t).1.all isSchemeChar = true
      then (pyLower (x :: (splitFirst ':' t).1), after) else ([], x :: t)) = _
    rw [if_neg (fun hc => hx hc.1)]

theorem splitNetloc_append {netloc rest2 : PyStr}
    (hfree : ∀ c ∈ netloc, ¬(c = '/' ∨ c = '?' ∨ c = '#'))
    (hrest : rest2 = [] ∨ ∃ h t, rest2 = h :: t ∧ (h = '/' ∨ h = '?' ∨ h = '#')) :
    splitNetloc (netloc ++ rest2) = (netloc, rest2) := by
  unfold splitNetloc
  have hfree2 : ∀ c ∈ netloc,
      (fun c => decide (¬(c = '/' ∨ c = '?' ∨ c = '#'))) c = true :=
    fun c hc => decide_eq_true (hfree c hc)
  obtain ⟨h1, h2⟩ := takeWhile_append_all hfree2
  rw [h1, h2]
  have ht : rest2.takeWhile (fun c => decide (¬(c = '/' ∨ c = '?' ∨ c = '#'))) = []
      ∧ rest2.dropWhile (fun c => decide (¬(c = '/' ∨ c = '?' ∨ c = '#'))) = rest2 := by
    rcases hrest with rfl | ⟨h, t, rfl, hh⟩
    · exact ⟨rfl, rfl⟩
    · have hd : ¬ ((fun c => decide (¬(c = '/' ∨ c = '?' ∨ c = '#'))) h = true) := by
        rw [decide_eq_true_eq]
        exact fun hn => hn hh
      constructor
      · rw [List.takeWhile_cons, if_neg hd]
      · rw [List.dropWhile_cons, if_neg hd]
  rw [ht.1, ht.2, List.append_nil]

theorem fragQuerySplit_eval {scheme netloc path nq : PyStr}
    (hpno : '#' ∉ path ∧ '?' ∉ path) (hqc : ∀ c ∈ nq, c ≠ '#') :
    fragQuerySplit scheme netloc
      (path ++ (if nq = [] then ([] : PyStr) else '?' :: nq))
      = ⟨scheme, netloc, path, nq, []⟩ := by
  by_cases hq0 : nq = []
  · subst hq0
    rw [if_pos rfl, List.append_nil]
    have h1 : splitFirst '#' path = (path, none) := splitFirst_of_not_mem hpno.1
    have h2 : splitFirst '?' path = (path, none) := splitFirst_of_not_mem hpno.2
    simp only [fragQuerySplit, h1, h2]
    rfl
  · rw [if_neg hq0]
    have h1 : splitFirst '#' (path ++ '?' :: nq) = (path ++ '?' :: nq, none) := by
      apply splitFirst_of_not_mem
      intro hm
      rcases List.mem_append.mp hm with hma | hmb
      · exact hpno.1 hma
      · rcases List.mem_cons.mp hmb with hc | hc
        · exact absurd hc (by decide)
        · exact hqc '#' hc rfl
    have h2 : splitFirst '?' (path ++ '?' :: nq) = (path, some nq) :=
      splitFirst_append hpno.2
    simp only [fragQuerySplit, h1, h2]
    rfl

theorem path_shape_of_head (hd : Char) (tl : PyStr)
    (hhd : hd = '/' ∨ hd = '?' ∨ hd = '#') :
    (splitFirst '?' (splitFirst '#' (hd :: tl)).1).1 = [] ∨
    ∃ t, (splitFirst '?' (splitFirst '#' (hd :: tl)).1).1 = '/' :: t := by
  rcases hhd with rfl | rfl | rfl
  · rw [@splitFirst_cons_ne '#' '/' tl (by decide)]
    show (splitFirst '?' ('/' :: (splitFirst '#' tl).1)).1 = [] ∨
      ∃ t, (splitFirst '?' ('/' :: (splitFirst '#' tl).1)).1 = '/' :: t
    rw [@splitFirst_cons_ne '?' '/' ((splitFirst '#' tl).1) (by decide)]
    show '/' :: (splitFirst '?' (splitFirst '#' tl).1).1 = [] ∨
      ∃ t, '/' :: (splitFirst '?' (splitFirst '#' tl).1).1 = '/' :: t
    exact Or.inr ⟨_, rfl⟩
  · rw [@splitFirst_cons_ne '#' '?' tl (by decide)]
    show (splitFirst '?' ('?' :: (splitFirst '#' tl).1)).1 = [] ∨
      ∃ t, (splitFirst '?' ('?' :: (splitFirst '#' tl).1)).1 = '/' :: t
    rw [splitFirst_cons_eq '?' ((splitFirst '#' tl).1)]
    exact Or.inl rfl
  · rw [splitFirst_cons_eq '#' tl]
    exact Or.inl rfl

theorem schemeSplit_fst_facts (u : PyStr) :
    ((schemeSplit u).1 = [] ∨ ∃ s0 stail, (schemeSplit u).1 = s0 :: stail ∧
      s0.isAlpha = true ∧ stail.all isSchemeChar = true) ∧
    pyLower (schemeSplit u).1 = (schemeSplit u).1 := by
  rcases schemeSplit_eq u with h | ⟨b0, btail, after, _, hal, hsc, h⟩
  · rw [h]
    exact ⟨Or.inl rfl, rfl⟩
  · rw [h]
    constructor
    · right
      refine ⟨asciiLower b0, pyLower btail, rfl, asciiLower_alpha hal, ?_⟩
      rw [List.all_eq_true]
      intro c hc
      unfold pyLower at hc
      rw [List.mem_map] at hc
      obtain ⟨d, hd, rfl⟩ := hc
      exact asciiLower_schemeChar (List.all_eq_true.mp hsc d hd)
    · exact pyLower_idem (b0 :: btail)

theorem urlsplitE_ok_facts {u : PyStr} {rs : UrlSplitResult}
    (h : urlsplitE u = Except.ok rs) :
    (rs.scheme = [] ∨ ∃ s0 stail, rs.scheme = s0 :: stail ∧ s0.isAlpha = true ∧
      stail.all isSchemeChar = true) ∧
    pyLower rs.scheme = rs.scheme ∧
    (∀ c ∈ rs.netloc, ¬(c = '/' ∨ c = '?' ∨ c = '#')) ∧
    (∀ c ∈ rs.netloc, ¬(c = '\t' ∨ c = '\r' ∨ c = '\n')) ∧
    ¬ (('[' ∈ rs.netloc ∧ ¬ ']' ∈ rs.netloc) ∨ (']' ∈ rs.netloc ∧ ¬ '[' ∈ rs.netloc)) ∧
    '#' ∉ rs.path ∧ '?' ∉ rs.path ∧
    (∀ c ∈ rs.path, ¬(c = '\t' ∨ c = '\r' ∨ c = '\n')) ∧
    (rs.netloc ≠ [] → rs.path = [] ∨ ∃ t, rs.path = '/' :: t) := by
  simp only [urlsplitE] at h
  by_cases hpre : (['/', '/'] : PyStr).isPrefixOf (schemeSplit (sanitizeUrl u)).2 = true
  · rw [if_pos hpre] at h
    by_cases hbr : ('[' ∈ (splitNetloc ((schemeSplit (sanitizeUrl u)).2.drop 2)).1 ∧
        ¬ ']' ∈ (splitNetloc ((schemeSplit (sanitizeUrl u)).2.drop 2)).1) ∨
        (']' ∈ (splitNetloc ((schemeSplit (sanitizeUrl u)).2.drop 2)).1 ∧
        ¬ '[' ∈ (splitNetloc ((schemeSplit (sanitizeUrl u)).2.drop 2)).1)
    · rw [if_pos hbr] at h
      exact Except.noConfusion h
    · rw [if_neg hbr] at h
      injection h with hEq
      subst hEq
      have hsch := schemeSplit_fst_facts (sanitizeUrl u)
      have hfq := fragQuerySplit_path_facts (schemeSplit (sanitizeUrl u)).1
        (splitNetloc ((schemeSplit (sanitizeUrl u)).2.drop 2)).1
        (splitNetloc ((schemeSplit (sanitizeUrl u)).2.drop 2)).2
      have hff := fragQuerySplit_fields (schemeSplit (sanitizeUrl u)).1
        (splitNetloc ((schemeSplit (sanitizeUrl u)).2.drop 2)).1
        (splitNetloc ((schemeSplit (sanitizeUrl u)).2.drop 2)).2
      rw [hff.1, hff.2.1]
      have hnlmem : ∀ c ∈ (splitNetloc ((schemeSplit (sanitizeUrl u)).2.drop 2)).1,
          c ∈ sanitizeUrl u := by
        intro c hc
        unfold splitNetloc at hc
        have h1 := (List.takeWhile_sublist _).mem hc
        have h2 := (List.drop_sublist 2 _).mem h1
        exact schemeSplit_snd_mem (sanitizeUrl u) c h2
      have hrestmem : ∀ c ∈ (splitNetloc ((schemeSplit (sanitizeUrl u)).2.drop 2)).2,
          c ∈ sanitizeUrl u := by
        intro c hc
        unfold splitNetloc at hc
        have h1 := (List.dropWhile_sublist _).mem hc
        have h2 := (List.drop_sublist 2 _).mem h1
        exact schemeSplit_snd_mem (sanitizeUrl u) c h2
      refine ⟨hsch.1, hsch.2, ?_, ?_, hbr, hfq.1, hfq.2.1, ?_, ?_⟩
      · intro c hc
        unfold splitNetloc at hc
        have := List.mem_takeWhile_imp hc
        rw [decide_eq_true_eq] at this
        exact this
      · intro c hc
        exact sanitizeUrl_no_ctl u c (hnlmem c hc)
      · intro c hc
        exact sanitizeUrl_no_ctl u c (hrestmem c (hfq.2.2 c hc))
      · intro _
        rw [hff.2.2]
        rcases hdw : (splitNetloc ((schemeSplit (sanitizeUrl u)).2.drop 2)).2 with _ | ⟨hd, tl⟩
        · left
          rfl
        · have hdne : ((schemeSplit (sanitizeUrl u)).2.drop 2).dropWhile
              (fun c => decide (¬(c = '/' ∨ c = '?' ∨ c = '#'))) ≠ [] := by
            intro hnil
            unfold splitNetloc at hdw
            rw [hnil] at hdw
            exact List.noConfusion hdw
          have hdw2 : ((schemeSplit (sanitizeUrl u)).2.drop 2).dropWhile
              (fun c => decide (¬(c = '/' ∨ c = '?' ∨ c = '#'))) = hd :: tl := by
            unfold splitNetloc at hdw
            exact hdw
          have hhead := List.head?_dropWhile_not
            (fun c => decide (¬(c = '/' ∨ c = '?' ∨ c = '#')))
            ((schemeSplit (sanitizeUrl u)).2.drop 2)
          rw [hdw2] at hhead
          have hhd : hd = '/' ∨ hd = '?' ∨ hd = '#' := by
            have h6 : decide (¬(hd = '/' ∨ hd = '?' ∨ hd = '#')) = false := hhead
            rw [decide_eq_false_iff_not, not_not] at h6
            exact h6
          exact path_shape_of_head hd tl hhd
  · rw [if_neg hpre] at h
    injection h with hEq
    subst hEq
    have hsch := schemeSplit_fst_facts (sanitizeUrl u)
    have hfq := fragQuerySplit_path_facts (schemeSplit (sanitizeUrl u)).1 []
      (schemeSplit (sanitizeUrl u)).2
    have hff := fragQuerySplit_fields (schemeSplit (sanitizeUrl u)).1 []
      (schemeSplit (sanitizeUrl u)).2
    rw [hff.1, hff.2.1]
    refine ⟨hsch.1, hsch.2, ?_, ?_, ?_, hfq.1, hfq.2.1, ?_, ?_⟩
    · intro c hc
      cases hc
    · intro c hc
      cases hc
    · rintro (⟨hc, _⟩ | ⟨hc, _⟩) <;> cases hc
    · intro c hc
      exact sanitizeUrl_no_ctl u c
        (schemeSplit_snd_mem (sanitizeUrl u) c (hfq.2.2 c hc))
    · intro hn
      exact absurd rfl hn

theorem takeWhile_all_eq {p : Char → Bool} {a : PyStr} (h : ∀ c ∈ a, p c = true) :
    a.takeWhile p = a := by
  have h2 := (@takeWhile_append_all p a [] h).1
  rw [List.append_nil] at h2
  simpa using h2

theorem mem_takeWhile_pred {p : Char → Bool} {l : PyStr} {c : Char}
    (h : c ∈ l.takeWhile p) : p c = true :=
  List.mem_takeWhile_imp h

theorem splitparams_self {p : PyStr}
    (h : ';' ∉ p.reverse.takeWhile fun c => ¬(c = '/')) :
    splitparams p = (p, []) := by
  by_cases hs : '/' ∈ p
  · have hsuf : ';' ∉ (p.reverse.takeWhile fun c => ¬(c = '/')).reverse := by
      rw [List.mem_reverse]
      exact h
    simp only [splitparams]
    rw [if_pos hs, splitFirst_of_not_mem hsuf]
  · have hall : ∀ c ∈ p.reverse, (fun c => decide (¬(c = '/'))) c = true := by
      intro c hc
      rw [decide_eq_true_eq]
      intro hc2
      rw [List.mem_reverse] at hc
      exact hs (hc2 ▸ hc)
    have hcm : ';' ∉ p := by
      intro hc
      apply h
      rw [takeWhile_all_eq hall, List.mem_reverse]
      exact hc
    simp only [splitparams]
    rw [if_neg hs, splitFirst_of_not_mem hcm]

theorem splitparams_fst_mem (p : PyStr) : ∀ c ∈ (splitparams p).1, c ∈ p := by
  intro c hc
  simp only [splitparams] at hc
  by_cases hs : '/' ∈ p
  · rw [if_pos hs] at hc
    rcases hsp : splitFirst ';' ((p.reverse.takeWhile fun c => ¬(c = '/')).reverse)
        with ⟨b1, o⟩
    rw [hsp] at hc
    cases o with
    | some b2 =>
      have hc2 : c ∈ ((p.reverse.dropWhile fun c => ¬(c = '/')).reverse ++ b1) := hc
      rcases List.mem_append.mp hc2 with h1 | h2
      · rw [List.mem_reverse] at h1
        have h3 := (List.dropWhile_sublist _).mem h1
        rw [List.mem_reverse] at h3
        exact h3
      · have h3 := (splitFirst_fst_facts ';'
          ((p.reverse.takeWhile fun c => ¬(c = '/')).reverse)).2 c
          (by rw [hsp]; exact h2)
        rw [List.mem_reverse] at h3
        have h4 := (List.takeWhile_sublist _).mem h3
        rw [List.mem_reverse] at h4
        exact h4
    | none => exact hc
  · rw [if_neg hs] at hc
    rcases hsp : splitFirst ';' p with ⟨b1, o⟩
    rw [hsp] at hc
    cases o with
    | some b2 =>
      exact (splitFirst_fst_facts ';' p).2 c (by rw [hsp]; exact hc)
    | none => exact hc

theorem splitparams_fst_lastseg (p : PyStr) :
    ';' ∉ (splitparams p).1.reverse.takeWhile fun c => ¬(c = '/') := by
  intro hmem
  by_cases hs : '/' ∈ p
  · rcases hsp : splitFirst ';' ((p.reverse.takeWhile fun c => ¬(c = '/')).reverse)
        with ⟨b1, o⟩
    cases o with
    | some b2 =>
      have hfst : (splitparams p).1
          = (p.reverse.dropWhile fun c => ¬(c = '/')).reverse ++ b1 := by
        simp only [splitparams]
        rw [if_pos hs, hsp]
      rw [hfst, List.reverse_append, List.reverse_reverse] at hmem
      have hb1 : ∀ c ∈ b1.reverse, (fun c => decide (¬(c = '/'))) c = true := by
        intro c hc
        rw [List.mem_reverse] at hc
        have h3 := (splitFirst_fst_facts ';'
          ((p.reverse.takeWhile fun c => ¬(c = '/')).reverse)).2 c
          (by rw [hsp]; exact hc)
        rw [List.mem_reverse] at h3
        exact mem_takeWhile_pred h3
      rw [(takeWhile_append_all hb1).1] at hmem
      rcases hdr : (p.reverse.dropWhile fun c => ¬(c = '/')) with _ | ⟨hd, tl⟩
      · rw [List.dropWhile_eq_nil_iff] at hdr
        have h5 := hdr '/' (List.mem_reverse.mpr hs)
        rw [decide_eq_true_eq] at h5
        exact h5 rfl
      · have hhead := List.head?_dropWhile_not (fun c => decide (¬(c = '/'))) p.reverse
        rw [hdr] at hhead
        have h6 : decide (¬(hd = '/')) = false := hhead
        rw [hdr, List.takeWhile_cons, if_neg (by rw [h6]; exact Bool.false_ne_true),
          List.append_nil, List.mem_reverse] at hmem
        exact (splitFirst_fst_facts ';'
          ((p.reverse.takeWhile fun c => ¬(c = '/')).reverse)).1
          (by rw [hsp]; exact hmem)
    | none =>
      have hfst : (splitparams p).1 = p := by
        simp only [splitparams]
        rw [if_pos hs, hsp]
      rw [hfst] at hmem
      exact (splitFirst_none_recon hsp).2 (List.mem_reverse.mpr hmem)
  · rcases hsp : splitFirst ';' p with ⟨b1, o⟩
    cases o with
    | some b2 =>
      have hfst : (splitparams p).1 = b1 := by
        simp only [splitparams]
        rw [if_neg hs, hsp]
      rw [hfst] at hmem
      have h3 := (List.takeWhile_sublist _).mem hmem
      rw [List.mem_reverse] at h3
      exact (splitFirst_fst_facts ';' p).1 (by rw [hsp]; exact h3)
    | none =>
      have hfst : (splitparams p).1 = p := by
        simp only [splitparams]
        rw [if_neg hs, hsp]
      rw [hfst] at hmem
      have h3 := (List.takeWhile_sublist _).mem hmem
      rw [List.mem_reverse] at h3
      exact (splitFirst_none_recon hsp).2 h3

theorem splitparams_fst_shape (t : PyStr) :
    (splitparams ('/' :: t)).1 = [] ∨
    ∃ t2, (splitparams ('/' :: t)).1 = '/' :: t2 := by
  have hs : '/' ∈ ('/' :: t) := List.mem_cons_self _ _
  rcases hsp : splitFirst ';' ((('/' :: t).reverse.takeWhile fun c => ¬(c = '/')).reverse)
      with ⟨b1, o⟩
  cases o with
  | some b2 =>
    have hfst : (splitparams ('/' :: t)).1
        = (('/' :: t).reverse.dropWhile fun c => ¬(c = '/')).reverse ++ b1 := by
      simp only [splitparams]
      rw [if_pos hs, hsp]
    have hne : (('/' :: t).reverse.dropWhile fun c => ¬(c = '/')) ≠ [] := by
      intro hnil
      rw [List.dropWhile_eq_nil_iff] at hnil
      have h5 := hnil '/' (List.mem_reverse.mpr hs)
      rw [decide_eq_true_eq] at h5
      exact h5 rfl
    obtain ⟨pre2, hpre2⟩ := List.dropWhile_suffix
      (l := ('/' :: t).reverse) (fun c => decide (¬(c = '/')))
    have hrev : (('/' :: t).reverse.dropWhile fun c => ¬(c = '/')).reverse
        ++ pre2.reverse = '/' :: t := by
      rw [← List.reverse_append, hpre2, List.reverse_reverse]
    rcases hpr : (('/' :: t).reverse.dropWhile fun c => ¬(c = '/')).reverse
        with _ | ⟨x, xs⟩
    · rw [List.reverse_eq_nil_iff] at hpr
      exact absurd hpr hne
    · rw [hpr] at hrev
      rw [List.cons_append] at hrev
      injection hrev with hx _
      right
      refine ⟨xs ++ b1, ?_⟩
      rw [hfst, hpr, hx, List.cons_append]
  | none =>
    have hfst : (splitparams ('/' :: t)).1 = '/' :: t := by
      simp only [splitparams]
      rw [if_pos hs, hsp]
    exact Or.inr ⟨t, hfst⟩

theorem urlunsplit_netloc {scheme netloc path nq : PyStr} (hnl : netloc ≠ [])
    (hp : path = [] ∨ ∃ t, path = '/' :: t) :
    urlunsplit scheme netloc path nq []
      = (if scheme = [] then ([] : PyStr) else scheme ++ [':']) ++
        ('/' :: '/' :: (netloc ++ (path ++ (if nq = [] then ([] : PyStr) else '?' :: nq)))) := by
  have hc1 : netloc ≠ [] ∨ (scheme ≠ [] ∧ scheme ∈ uses_netloc ∧
      ¬ ((['/', '/'] : PyStr).isPrefixOf path = true)) := Or.inl hnl
  have hc2 : ¬ (path ≠ [] ∧ ¬ ((['/'] : PyStr).isPrefixOf path = true)) := by
    rintro ⟨hne, hnp⟩
    rcases hp with rfl | ⟨t, rfl⟩
    · exact hne rfl
    · exact hnp (by simp [List.isPrefixOf])
  simp only [urlunsplit]
  rw [if_pos hc1, if_neg hc2]
  by_cases hsch0 : scheme = [] <;> by_cases hq : nq = [] <;>
    simp [hsch0, hq, List.append_assoc]

theorem urlunparse_nil_params (s n p q f : PyStr) :
    urlunparse s n p [] q f = urlunsplit s n p q f := by
  unfold urlunparse
  rw [if_neg (fun h => h rfl)]

theorem urlparseE_eq {u : PyStr} {rs : UrlSplitResult}
    (hsp : urlsplitE u = Except.ok rs) :
    urlparseE u = if rs.scheme ∈ uses_params ∧ ';' ∈ rs.path
      then Except.ok ⟨rs.scheme, rs.netloc, (splitparams rs.path).1,
        (splitparams rs.path).2, rs.query, rs.fragment⟩
      else Except.ok ⟨rs.scheme, rs.netloc, rs.path, [], rs.query, rs.fragment⟩ := by
  unfold urlparseE
  rw [hsp]

theorem urlparseE_ok_split {u : PyStr} {r : UrlParseResult}
    (h : urlparseE u = Except.ok r) : ∃ rs, urlsplitE u = Except.ok rs := by
  unfold urlparseE at h
  rcases hsp : urlsplitE u with e | rs
  · rw [hsp] at h
    exact Except.noConfusion h
  · exact ⟨rs, rfl⟩

theorem urlparseE_ok_fields {u : PyStr} {r : UrlParseResult} {rs : UrlSplitResult}
    (hsp : urlsplitE u = Except.ok rs) (h : urlparseE u = Except.ok r) :
    r.scheme = rs.scheme ∧ r.netloc = rs.netloc ∧ r.query = rs.query ∧
    ((¬(rs.scheme ∈ uses_params ∧ ';' ∈ rs.path) ∧ r.path = rs.path) ∨
     ((rs.scheme ∈ uses_params ∧ ';' ∈ rs.path) ∧ r.path = (splitparams rs.path).1)) := by
  rw [urlparseE_eq hsp] at h
  by_cases hc : rs.scheme ∈ uses_params ∧ ';' ∈ rs.path
  · rw [if_pos hc] at h
    injection h with h2
    rw [← h2]
    exact ⟨rfl, rfl, rfl, Or.inr ⟨hc, rfl⟩⟩
  · rw [if_neg hc] at h
    injection h with h2
    rw [← h2]
    exact ⟨rfl, rfl, rfl, Or.inl ⟨hc, rfl⟩⟩

theorem urlsplitE_rebuilt {scheme netloc path nq : PyStr}
    (hsch : scheme = [] ∨ ∃ s0 stail, scheme = s0 :: stail ∧ s0.isAlpha = true ∧
      stail.all isSchemeChar = true)
    (hlow : pyLower scheme = scheme)
    (hnl : netloc ≠ [])
    (hnlfree : ∀ c ∈ netloc, ¬(c = '/' ∨ c = '?' ∨ c = '#'))
    (hnlclean : ∀ c ∈ netloc, ¬(c = '\t' ∨ c = '\r' ∨ c = '\n'))
    (hbr : ¬ (('[' ∈ netloc ∧ ¬ ']' ∈ netloc) ∨ (']' ∈ netloc ∧ ¬ '[' ∈ netloc)))
    (hp : path = [] ∨ ∃ t, path = '/' :: t)
    (hpno : '#' ∉ path ∧ '?' ∉ path)
    (hpclean : ∀ c ∈ path, ¬(c = '\t' ∨ c = '\r' ∨ c = '\n'))
    (hqc : ∀ c ∈ nq, 32 < c.toNat ∧ c ≠ '#' ∧ c ≠ '?') :
    urlsplitE (urlunsplit scheme netloc path nq []) =
      Except.ok ⟨scheme, netloc, path, nq, []⟩ := by
  rw [urlunsplit_netloc hnl hp]
  have hQclean : ∀ c ∈ (if nq = [] then ([] : PyStr) else '?' :: nq),
      ¬(c = '\t' ∨ c = '\r' ∨ c = '\n') := by
    by_cases hq0 : nq = []
    · rw [if_pos hq0]
      intro c hc
      cases hc
    · rw [if_neg hq0]
      intro c hc
      rcases List.mem_cons.mp hc with rfl | hc2
      · decide
      · exact clean_of_toNat_gt (hqc c hc2).1
  have hcoreclean : ∀ c ∈ ('/' :: '/' :: (netloc ++ (path ++
      (if nq = [] then ([] : PyStr) else '?' :: nq)))),
      ¬(c = '\t' ∨ c = '\r' ∨ c = '\n') := by
    intro c hc
    rcases List.mem_cons.mp hc with rfl | hc2
    · decide
    rcases List.mem_cons.mp hc2 with rfl | hc3
    · decide
    rcases List.mem_append.mp hc3 with hc4 | hc5
    · exact hnlclean c hc4
    rcases List.mem_append.mp hc5 with hc6 | hc7
    · exact hpclean c hc6
    · exact hQclean c hc7
  have hrest2 : (path ++ (if nq = [] then ([] : PyStr) else '?' :: nq)) = [] ∨
      ∃ h t, (path ++ (if nq = [] then ([] : PyStr) else '?' :: nq)) = h :: t ∧
        (h = '/' ∨ h = '?' ∨ h = '#') := by
    rcases hp with rfl | ⟨t, rfl⟩
    · by_cases hq0 : nq = []
      · rw [if_pos hq0]
        left
        rfl
      · rw [if_neg hq0]
        right
        exact ⟨'?', nq, rfl, Or.inr (Or.inl rfl)⟩
    · right
      exact ⟨'/', t ++ (if nq = [] then ([] : PyStr) else '?' :: nq),
        by rw [List.cons_append], Or.inl rfl⟩
  have hsnl := splitNetloc_append hnlfree hrest2
  have hfq := @fragQuerySplit_eval scheme netloc path nq hpno (fun c hc => (hqc c hc).2.1)
  rcases hsch with rfl | ⟨s0, stail, rfl, hal, hsc⟩
  · rw [if_pos rfl, List.nil_append]
    have hsan := sanitizeUrl_cons (h := '/') (by decide) hcoreclean
    have hss : schemeSplit ('/' :: '/' :: (netloc ++ (path ++
        (if nq = [] then ([] : PyStr) else '?' :: nq))))
        = ([], '/' :: '/' :: (netloc ++ (path ++
          (if nq = [] then ([] : PyStr) else '?' :: nq)))) :=
      schemeSplit_not_alpha (by decide) (by decide)
    simp only [urlsplitE]
    rw [hsan, hss]
    show (if (['/', '/'] : PyStr).isPrefixOf ('/' :: '/' :: (netloc ++ (path ++
        (if nq = [] then ([] : PyStr) else '?' :: nq)))) = true then _ else _) = _
    rw [if_pos (by simp [List.isPrefixOf])]
    show (if ('[' ∈ (splitNetloc (netloc ++ (path ++
          (if nq = [] then ([] : PyStr) else '?' :: nq)))).1 ∧
        ¬ ']' ∈ (splitNetloc (netloc ++ (path ++
          (if nq = [] then ([] : PyStr) else '?' :: nq)))).1) ∨
        (']' ∈ (splitNetloc (netloc ++ (path ++
          (if nq = [] then ([] : PyStr) else '?' :: nq)))).1 ∧
        ¬ '[' ∈ (splitNetloc (netloc ++ (path ++
          (if nq = [] then ([] : PyStr) else '?' :: nq)))).1)
      then _ else _) = _
    rw [hsnl]
    show (if ('[' ∈ netloc ∧ ¬ ']' ∈ netloc) ∨ (']' ∈ netloc ∧ ¬ '[' ∈ netloc)
      then _ else _) = _
    rw [if_neg hbr]
    show Except.ok (fragQuerySplit []
      (splitNetloc (netloc ++ (path ++ (if nq = [] then ([] : PyStr) else '?' :: nq)))).1
      (splitNetloc (netloc ++ (path ++ (if nq = [] then ([] : PyStr) else '?' :: nq)))).2) = _
    rw [hsnl]
    show Except.ok (fragQuerySplit [] netloc (path ++ (if nq = [] then ([] : PyStr) else '?' :: nq))) = _
    rw [hfq]
  · rw [if_neg (List.cons_ne_nil s0 stail)]
    have hcolon : ':' ∉ (s0 :: stail) := by
      intro hc
      rcases List.mem_cons.mp hc with h9 | hc2
      · rw [← h9] at hal
        exact absurd hal (by decide)
      · exact (isSchemeChar_clean (List.all_eq_true.mp hsc ':' hc2)).2.2 rfl
    have hschclean : ∀ c ∈ (s0 :: stail), ¬(c = '\t' ∨ c = '\r' ∨ c = '\n') := by
      intro c hc
      rcases List.mem_cons.mp hc with rfl | hc2
      · exact clean_of_toNat_gt (isAlpha_clean hal).1
      · exact clean_of_toNat_gt (isSchemeChar_clean (List.all_eq_true.mp hsc c hc2)).1
    have hsan : sanitizeUrl ((s0 :: stail) ++ [':'] ++ ('/' :: '/' :: (netloc ++ (path ++
        (if nq = [] then ([] : PyStr) else '?' :: nq)))))
        = (s0 :: stail) ++ [':'] ++ ('/' :: '/' :: (netloc ++ (path ++
          (if nq = [] then ([] : PyStr) else '?' :: nq)))) := by
      rw [List.append_assoc, List.cons_append]
      apply sanitizeUrl_cons (isAlpha_clean hal).1
      intro c hc
      rcases List.mem_cons.mp hc with rfl | hc2
      · exact clean_of_toNat_gt (isAlpha_clean hal).1
      rcases List.mem_append.mp hc2 with hc3 | hc4
      · exact hschclean c (List.mem_cons_of_mem s0 hc3)
      rcases List.mem_cons.mp hc4 with rfl | hc5
      · decide
      · exact hcoreclean c hc5
    have hss : schemeSplit ((s0 :: stail) ++ [':'] ++ ('/' :: '/' :: (netloc ++ (path ++
        (if nq = [] then ([] : PyStr) else '?' :: nq)))))
        = (s0 :: stail, '/' :: '/' :: (netloc ++ (path ++
          (if nq = [] then ([] : PyStr) else '?' :: nq)))) := by
      unfold schemeSplit
      rw [List.append_assoc, List.singleton_append]
      rw [splitFirst_append hcolon]
      show (if s0.isAlpha = true ∧ stail.all isSchemeChar = true then _ else _) = _
      rw [if_pos ⟨hal, hsc⟩, hlow]
    simp only [urlsplitE]
    rw [hsan, hss]
    show (if (['/', '/'] : PyStr).isPrefixOf ('/' :: '/' :: (netloc ++ (path ++
        (if nq = [] then ([] : PyStr) else '?' :: nq)))) = true then _ else _) = _
    rw [if_pos (by simp [List.isPrefixOf])]
    show (if ('[' ∈ (splitNetloc (netloc ++ (path ++
          (if nq = [] then ([] : PyStr) else '?' :: nq)))).1 ∧
        ¬ ']' ∈ (splitNetloc (netloc ++ (path ++
          (if nq = [] then ([] : PyStr) else '?' :: nq)))).1) ∨
        (']' ∈ (splitNetloc (netloc ++ (path ++
          (if nq = [] then ([] : PyStr) else '?' :: nq)))).1 ∧
        ¬ '[' ∈ (splitNetloc (netloc ++ (path ++
          (if nq = [] then ([] : PyStr) else '?' :: nq)))).1)
      then _ else _) = _
    rw [hsnl]
    show (if ('[' ∈ netloc ∧ ¬ ']' ∈ netloc) ∨ (']' ∈ netloc ∧ ¬ '[' ∈ netloc)
      then _ else _) = _
    rw [if_neg hbr]
    show Except.ok (fragQuerySplit (s0 :: stail)
      (splitNetloc (netloc ++ (path ++ (if nq = [] then ([] : PyStr) else '?' :: nq)))).1
      (splitNetloc (netloc ++ (path ++ (if nq = [] then ([] : PyStr) else '?' :: nq)))).2) = _
    rw [hsnl]
    show Except.ok (fragQuerySplit (s0 :: stail) netloc (path ++ (if nq = [] then ([] : PyStr) else '?' :: nq))) = _
    rw [hfq]

theorem urlparseE_rebuilt {scheme netloc path nq : PyStr}
    (hsch : scheme = [] ∨ ∃ s0 stail, scheme = s0 :: stail ∧ s0.isAlpha = true ∧
      stail.all isSchemeChar = true)
    (hlow : pyLower scheme = scheme)
    (hnl : netloc ≠ [])
    (hnlfree : ∀ c ∈ netloc, ¬(c = '/' ∨ c = '?' ∨ c = '#'))
    (hnlclean : ∀ c ∈ netloc, ¬(c = '\t' ∨ c = '\r' ∨ c = '\n'))
    (hbr : ¬ (('[' ∈ netloc ∧ ¬ ']' ∈ netloc) ∨ (']' ∈ netloc ∧ ¬ '[' ∈ netloc)))
    (hp : path = [] ∨ ∃ t, path = '/' :: t)
    (hpno : '#' ∉ path ∧ '?' ∉ path)
    (hpclean : ∀ c ∈ path, ¬(c = '\t' ∨ c = '\r' ∨ c = '\n'))
    (hqc : ∀ c ∈ nq, 32 < c.toNat ∧ c ≠ '#' ∧ c ≠ '?')
    (hsemi : scheme ∈ uses_params → ';' ∉ path.reverse.takeWhile fun c => ¬(c = '/')) :
    urlparseE (urlunsplit scheme netloc path nq []) =
      Except.ok ⟨scheme, netloc, path, [], nq, []⟩ := by
  rw [urlparseE_eq (urlsplitE_rebuilt hsch hlow hnl hnlfree hnlclean hbr hp hpno
    hpclean hqc)]
  by_cases hc : scheme ∈ uses_params ∧ ';' ∈ path
  · rw [if_pos hc]
    have hself := @splitparams_self path (hsemi hc.1)
    show Except.ok (⟨scheme, netloc, (splitparams path).1, (splitparams path).2,
      nq, []⟩ : UrlParseResult) = _
    rw [hself]
  · rw [if_neg hc]

/-- C7 as stated: every output pair of normalize_url is a fixed point. -/
def C7Statement : Prop :=
  ∀ u k n : PyStr, normalize_url u = some (k, n) → normalize_url n = some (k, n)

/-- Counterexample to C7 as stated: the URL s:////[x?q=1 parses with an
empty network location and a path that begins with two slashes, so the
rebuilt URL s://[x?q=FUZZ puts the path where a network location
belongs; reparsing it takes [x for a network location and raises
Invalid IPv6 URL, so renormalizing the output returns nothing at all. -/
theorem C7_counterexample : ¬ C7Statement := by
  intro h
  have h2 := h "s:////[x?q=1".data "s:?q=FUZZ".data "s://[x?q=FUZZ".data (by decide)
  exact absurd h2 (by decide)

/-- C7 (amended): normalization is idempotent on every output whose
input parses with a nonempty network location: when urlparse succeeds
on u with a nonempty netloc and normalize_url u returns the pair
(k, n), normalizing n again returns exactly (k, n) — the same
deduplication key and the same URL.  The netloc restriction is
necessary: an input whose parse has an empty netloc and a path starting
with two slashes yields an output that reparses differently (it can
even raise Invalid IPv6 URL), as the counterexample shows. -/
theorem C7_amended (u k n : PyStr) (r : UrlParseResult)
    (hu : urlparseE u = Except.ok r) (hnet : r.netloc ≠ [])
    (hnorm : normalize_url u = some (k, n)) :
    normalize_url n = some (k, n) := by
  obtain ⟨rs, hsp⟩ := urlparseE_ok_split hu
  obtain ⟨hfs, hfn, hfquery, hpathcase⟩ := urlparseE_ok_fields hsp hu
  obtain ⟨hsch, hlow, hnlfree, hnlclean, hbr, hpno1, hpno2, hpclean, hshape⟩ :=
    urlsplitE_ok_facts hsp
  rw [normalize_url_ok hu] at hnorm
  have hkn := Option.some.inj hnorm
  have hk : urlunparse (pyLower r.scheme) (pyLower r.netloc) [] []
      (normalizedQuery r.query) [] = k := congrArg Prod.fst hkn
  have hn : urlunparse r.scheme r.netloc r.path [] (normalizedQuery r.query) [] = n :=
    congrArg Prod.snd hkn
  have hrsnet : rs.netloc ≠ [] := fun h2 => hnet (hfn.trans h2)
  have hshape2 := hshape hrsnet
  have hrmem : ∀ c ∈ r.path, c ∈ rs.path := by
    rcases hpathcase with ⟨_, hpe⟩ | ⟨_, hpe⟩
    · rw [hpe]
      exact fun c hc => hc
    · rw [hpe]
      exact splitparams_fst_mem rs.path
  have hrpno : '#' ∉ r.path ∧ '?' ∉ r.path :=
    ⟨fun hm => hpno1 (hrmem '#' hm), fun hm => hpno2 (hrmem '?' hm)⟩
  have hrpclean : ∀ c ∈ r.path, ¬(c = '\t' ∨ c = '\r' ∨ c = '\n') :=
    fun c hc => hpclean c (hrmem c hc)
  have hrshape : r.path = [] ∨ ∃ t, r.path = '/' :: t := by
    rcases hpathcase with ⟨_, hpe⟩ | ⟨hcc, hpe⟩
    · rw [hpe]
      exact hshape2
    · rcases hshape2 with hnil | ⟨t, ht⟩
      · exact absurd (hnil ▸ hcc.2) (by simp)
      · rw [hpe, ht]
        exact splitparams_fst_shape t
  have hrsemi : r.scheme ∈ uses_params →
      ';' ∉ r.path.reverse.takeWhile fun c => ¬(c = '/') := by
    intro hup hmem
    rcases hpathcase with ⟨hnc, hpe⟩ | ⟨hcc, hpe⟩
    · apply hnc
      refine ⟨by rw [← hfs]; exact hup, ?_⟩
      have h3 := (List.takeWhile_sublist _).mem hmem
      rw [List.mem_reverse] at h3
      rw [hpe] at h3
      exact h3
    · rw [hpe] at hmem
      exact splitparams_fst_lastseg rs.path hmem
  have hsche : r.scheme = [] ∨ ∃ s0 stail, r.scheme = s0 :: stail ∧
      s0.isAlpha = true ∧ stail.all isSchemeChar = true := by
    rw [hfs]
    exact hsch
  have hlowr : pyLower r.scheme = r.scheme := by
    rw [hfs]
    exact hlow
  have hnlfree2 : ∀ c ∈ r.netloc, ¬(c = '/' ∨ c = '?' ∨ c = '#') := by
    rw [hfn]
    exact hnlfree
  have hnlclean2 : ∀ c ∈ r.netloc, ¬(c = '\t' ∨ c = '\r' ∨ c = '\n') := by
    rw [hfn]
    exact hnlclean
  have hbr2 : ¬ (('[' ∈ r.netloc ∧ ¬ ']' ∈ r.netloc) ∨
      (']' ∈ r.netloc ∧ ¬ '[' ∈ r.netloc)) := by
    rw [hfn]
    exact hbr
  have hqcn := normalizedQuery_charset r.query
  have hn2 : n = urlunsplit r.scheme r.netloc r.path (normalizedQuery r.query) [] := by
    rw [← hn, urlunparse_nil_params]
  have hup2 : urlparseE n = Except.ok ⟨r.scheme, r.netloc, r.path, [],
      normalizedQuery r.query, []⟩ := by
    rw [hn2]
    exact urlparseE_rebuilt hsche hlowr hnet hnlfree2 hnlclean2 hbr2 hrshape
      hrpno hrpclean hqcn hrsemi
  rw [normalize_url_ok hup2]
  show some (urlunparse (pyLower r.scheme) (pyLower r.netloc) [] []
      (normalizedQuery (normalizedQuery r.query)) [],
    urlunparse r.scheme r.netloc r.path [] (normalizedQuery (normalizedQuery r.query)) [])
    = some (k, n)
  rw [normalizedQuery_idem, hk, hn]

/-- Witness for the amended C7 at a concrete input: normalizing
http://a.com/x?z=1&a=2 and then renormalizing the output reproduces the
same key and URL. -/
theorem C7_amended_witness :
    normalize_url "http://a.com/x?a=FUZZ&z=FUZZ".data
      = some ("http://a.com?a=FUZZ&z=FUZZ".data, "http://a.com/x?a=FUZZ&z=FUZZ".data) :=
  C7_amended "http://a.com/x?z=1&a=2".data "http://a.com?a=FUZZ&z=FUZZ".data
    "http://a.com/x?a=FUZZ&z=FUZZ".data
    ⟨"http".data, "a.com".data, "/x".data, [], "z=1&a=2".data, []⟩
    (by decide) (by decide) (by decide)
